import Mathlib

set_option maxHeartbeats 2000000
set_option maxRecDepth 4000

namespace Matscan

/-!
Shallow embedding of the scan-result processing pipeline of matscan
(src/processing/minecraft.rs and src/database/mod.rs), together with
theorems checking the natural-language specification against it.

Machine integers are modelled as `Nat` with explicit masking where the
source masks; strings are modelled as `String` / `List Char`, and the
code-point sequence of a Rust `&str` as `List Nat` where the source
iterates over `chars()`.
-/

/-- UTF-8 byte size of a Unicode code point (as Rust's `char::len_utf8`). -/
def utf8Size (c : Nat) : Nat :=
  if c < 0x80 then 1 else if c < 0x800 then 2 else if c < 0x10000 then 3 else 4

/-- Byte length of a Rust `&str`, given its sequence of code points
(`str::len` counts UTF-8 bytes). -/
def strByteLen (s : List Nat) : Nat := (s.map utf8Size).sum

/-!
### decode_optimized (minecraft.rs lines 236-268)

The inner `while bits_in_buf >= 8 { bytes.push(...); buffer >>= 8; bits_in_buf -= 8 }`
loops are modelled with a fuel argument: each iteration requires `8 ≤ bits`
and lowers `bits` by 8, so running with `fuel = bits` is exhaustive.
-/

/-- One `while bits_in_buf >= 8` drain loop of `decode_optimized` (the one
inside the `for` loop, which has no length check). -/
def drainGo : Nat → List Nat → Nat → Nat → List Nat × Nat × Nat
  | 0, bytes, buffer, bits => (bytes, buffer, bits)
  | fuel + 1, bytes, buffer, bits =>
    if 8 ≤ bits then drainGo fuel (bytes ++ [buffer &&& 0xFF]) (buffer >>> 8) (bits - 8)
    else (bytes, buffer, bits)

/-- `while bits_in_buf >= 8 { bytes.push((buffer & 0xFF) as u8); buffer >>= 8; bits_in_buf -= 8 }`. -/
def drain (bytes : List Nat) (buffer bits : Nat) : List Nat × Nat × Nat :=
  drainGo bits bytes buffer bits

/-- The trailing `while bytes.len() < size && bits_in_buf >= 8` drain loop of
`decode_optimized` (the only one that consults the declared size). -/
def drainSizedGo : Nat → Nat → List Nat → Nat → Nat → List Nat
  | 0, _, bytes, _, _ => bytes
  | fuel + 1, size, bytes, buffer, bits =>
    if bytes.length < size ∧ 8 ≤ bits then
      drainSizedGo fuel size (bytes ++ [buffer &&& 0xFF]) (buffer >>> 8) (bits - 8)
    else bytes

/-- `while bytes.len() < size && bits_in_buf >= 8 { ... }`. -/
def drainSized (size : Nat) (bytes : List Nat) (buffer bits : Nat) : List Nat :=
  drainSizedGo bits size bytes buffer bits

/-- The `for c in chars { while ... ; buffer |= ((c as u32) & 0x7FFF) << bits_in_buf; bits_in_buf += 15 }`
loop of `decode_optimized`. -/
def decodeLoop : List Nat → List Nat × Nat × Nat → List Nat × Nat × Nat
  | [], st => st
  | c :: cs, (bytes, buffer, bits) =>
    let st := drain bytes buffer bits
    decodeLoop cs (st.1, st.2.1 ||| ((c &&& 0x7FFF) <<< st.2.2), st.2.2 + 15)

/-- `fn decode_optimized(encoded: &str) -> Option<Vec<u8>>`; `encoded` is
given as its sequence of Unicode code points (what `encoded.chars()`
yields), with the `encoded.len() < 2` guard computed on UTF-8 byte length
as in the source. -/
def decode_optimized (encoded : List Nat) : Option (List Nat) :=
  if strByteLen encoded < 2 then none
  else
    match encoded with
    | c0 :: c1 :: rest =>
      let size := c0 ||| (c1 <<< 15)
      let st := decodeLoop rest ([], 0, 0)
      some (drainSized size st.1 st.2.1 st.2.2)
    | _ => none

/-- The declared 30-bit-in-intent output length read by `decode_optimized`
from the first two characters: `size0 | (size1 << 15)` (the source does not
mask `size0` to 15 bits). -/
def declaredSize (encoded : List Nat) : Nat :=
  match encoded with
  | c0 :: c1 :: _ => c0 ||| (c1 <<< 15)
  | _ => 0

/-! ### Generic facts about the drain loops -/

/-- Little-endian value of a byte list (byte 0 is least significant). -/
def listVal : List Nat → Nat
  | [] => 0
  | b :: bs => b + 256 * listVal bs

/-- All entries are bytes. -/
def allBytes (bs : List Nat) : Prop := ∀ b ∈ bs, b < 256

theorem listVal_append_one (bs : List Nat) (x : Nat) :
    listVal (bs ++ [x]) = listVal bs + x * 256 ^ bs.length := by
  induction bs with
  | nil => simp [listVal]
  | cons b bs ih =>
    have h1 : ((b :: bs) ++ [x]) = b :: (bs ++ [x]) := rfl
    have h2 : listVal (b :: (bs ++ [x])) = b + 256 * listVal (bs ++ [x]) := rfl
    have h3 : listVal (b :: bs) = b + 256 * listVal bs := rfl
    rw [h1, h2, h3, ih, List.length_cons]
    ring

theorem listVal_lt (bs : List Nat) (h : allBytes bs) : listVal bs < 256 ^ bs.length := by
  induction bs with
  | nil => simp [listVal]
  | cons b bs ih =>
    have hb : b < 256 := h b (by simp)
    have hbs : listVal bs < 256 ^ bs.length := ih (fun x hx => h x (List.mem_cons_of_mem _ hx))
    simp only [listVal, List.length_cons, pow_succ]
    calc b + 256 * listVal bs < 256 + 256 * listVal bs := by omega
    _ = 256 * (listVal bs + 1) := by ring
    _ ≤ 256 * 256 ^ bs.length := by
        have : listVal bs + 1 ≤ 256 ^ bs.length := hbs
        exact Nat.mul_le_mul_left 256 this
    _ = 256 ^ bs.length * 256 := by ring

theorem listVal_inj (xs ys : List Nat) (hx : allBytes xs) (hy : allBytes ys)
    (hlen : xs.length = ys.length) (hval : listVal xs = listVal ys) : xs = ys := by
  induction xs generalizing ys with
  | nil => cases ys with
    | nil => rfl
    | cons y ys => simp at hlen
  | cons x xs ih =>
    cases ys with
    | nil => simp at hlen
    | cons y ys =>
      have hx0 : x < 256 := hx x (by simp)
      have hy0 : y < 256 := hy y (by simp)
      simp only [listVal] at hval
      have hxy : x = y := by omega
      subst hxy
      have hv : listVal xs = listVal ys := by omega
      have := ih ys (fun b hb => hx b (List.mem_cons_of_mem _ hb))
        (fun b hb => hy b (List.mem_cons_of_mem _ hb)) (by simpa using hlen) hv
      simp [this]

theorem and_255_eq_mod (x : Nat) : x &&& 0xFF = x % 256 := by
  have h := Nat.and_pow_two_sub_one_eq_mod x 8
  norm_num at h
  exact h

theorem and_7FFF_eq_mod (x : Nat) : x &&& 0x7FFF = x % 32768 := by
  have h := Nat.and_pow_two_sub_one_eq_mod x 15
  norm_num at h
  exact h

theorem shr8_eq_div (x : Nat) : x >>> 8 = x / 256 := by
  have h := Nat.shiftRight_eq_div_pow x 8
  norm_num at h
  exact h

/-- Bit-disjoint `|||` is addition: if `a < 2 ^ n` then `a ||| (b <<< n) = a + b * 2 ^ n`. -/
theorem lor_shiftLeft_eq_add {a : Nat} (b n : Nat) (ha : a < 2 ^ n) :
    a ||| (b <<< n) = a + b * 2 ^ n := by
  apply Nat.eq_of_testBit_eq
  intro i
  have hadd : a + b * 2 ^ n = 2 ^ n * b + a := by ring
  rw [Nat.testBit_lor, Nat.testBit_shiftLeft, hadd, Nat.testBit_mul_pow_two_add b ha i]
  by_cases hi : i < n
  · simp [hi, Nat.not_le_of_lt hi]
  · have hn : n ≤ i := Nat.le_of_not_lt hi
    have : a < 2 ^ i := Nat.lt_of_lt_of_le ha (Nat.pow_le_pow_right (by norm_num) hn)
    simp [hi, hn, Nat.testBit_eq_false_of_lt this]

/-- Invariants of the unbounded drain loop: the combined little-endian value
is preserved, 8 bits leave the buffer per emitted byte, the loop stops with
fewer than 8 buffered bits, outputs are bytes, and a buffer bounded by its
bit count stays bounded. -/
theorem drainGo_spec (fuel : Nat) :
    ∀ bytes buffer bits, bits ≤ fuel →
    let st := drainGo fuel bytes buffer bits
    listVal st.1 + st.2.1 % 2 ^ st.2.2 * 256 ^ st.1.length
        = listVal bytes + buffer % 2 ^ bits * 256 ^ bytes.length ∧
    8 * st.1.length + st.2.2 = 8 * bytes.length + bits ∧
    st.2.2 < 8 ∧
    (allBytes bytes → allBytes st.1) ∧
    (buffer < 2 ^ bits → st.2.1 < 2 ^ st.2.2) := by
  induction fuel with
  | zero =>
    intro bytes buffer bits hle
    have hb : bits = 0 := by omega
    subst hb
    simp [drainGo]
  | succ fuel ih =>
    intro bytes buffer bits hle
    by_cases h8 : 8 ≤ bits
    · have hstep := ih (bytes ++ [buffer &&& 0xFF]) (buffer >>> 8) (bits - 8) (by omega)
      simp only [drainGo, if_pos h8]
      have hmod : buffer % 2 ^ bits = buffer % 256 + 256 * (buffer / 256 % 2 ^ (bits - 8)) := by
        have hbits : bits = 8 + (bits - 8) := by omega
        calc buffer % 2 ^ bits = buffer % (256 * 2 ^ (bits - 8)) := by
              rw [hbits, pow_add]; norm_num
        _ = buffer % 256 + 256 * (buffer / 256 % 2 ^ (bits - 8)) := Nat.mod_mul
      refine ⟨?_, ?_, hstep.2.2.1, ?_, ?_⟩
      · rw [hstep.1, listVal_append_one, and_255_eq_mod, shr8_eq_div]
        simp only [List.length_append, List.length_cons, List.length_nil]
        rw [hmod]
        ring
      · have := hstep.2.1
        simp only [List.length_append, List.length_cons, List.length_nil] at this ⊢
        omega
      · intro hall
        refine hstep.2.2.2.1 ?_
        intro b hb
        rcases List.mem_append.mp hb with h | h
        · exact hall b h
        · simp only [List.mem_singleton] at h
          subst h
          rw [and_255_eq_mod]
          exact Nat.mod_lt _ (by norm_num)
      · intro hbuf
        refine hstep.2.2.2.2 ?_
        rw [shr8_eq_div]
        have hbits : bits = 8 + (bits - 8) := by omega
        have : buffer < 2 ^ 8 * 2 ^ (bits - 8) := by
          rw [← pow_add, ← hbits]; exact hbuf
        rw [Nat.div_lt_iff_lt_mul (by norm_num : (0:Nat) < 256)]
        calc buffer < 2 ^ 8 * 2 ^ (bits - 8) := this
        _ = 2 ^ (bits - 8) * 256 := by ring_nf
    · simp only [drainGo, if_neg h8]
      refine ⟨?_, ?_, ?_, ?_, ?_⟩
      · trivial
      · trivial
      · omega
      · exact fun h => h
      · exact fun h => h

/-- Invariants of the size-checked trailing drain loop: its output length is
bounded by `max` of input length and declared size, reaches exactly that when
enough bits are buffered, keeps entries bytes, and preserves the combined
value modulo `256 ^ output length`. -/
theorem drainSizedGo_spec (fuel : Nat) :
    ∀ size bytes buffer bits, bits ≤ fuel →
    (drainSizedGo fuel size bytes buffer bits).length ≤ max bytes.length size ∧
    (size ≤ bytes.length + bits / 8 →
      (drainSizedGo fuel size bytes buffer bits).length = max bytes.length size) ∧
    (allBytes bytes → allBytes (drainSizedGo fuel size bytes buffer bits)) ∧
    listVal (drainSizedGo fuel size bytes buffer bits)
        % 256 ^ (drainSizedGo fuel size bytes buffer bits).length
      = (listVal bytes + buffer % 2 ^ bits * 256 ^ bytes.length)
        % 256 ^ (drainSizedGo fuel size bytes buffer bits).length := by
  induction fuel with
  | zero =>
    intro size bytes buffer bits hle
    have hb : bits = 0 := by omega
    subst hb
    refine ⟨Nat.le_max_left _ _, fun hs => ?_, fun h => h, ?_⟩
    · simp only [drainSizedGo]
      omega
    · simp [drainSizedGo]
  | succ fuel ih =>
    intro size bytes buffer bits hle
    by_cases hc : bytes.length < size ∧ 8 ≤ bits
    · have hstep := ih size (bytes ++ [buffer &&& 0xFF]) (buffer >>> 8) (bits - 8) (by omega)
      simp only [drainSizedGo, if_pos hc]
      have hlen1 : (bytes ++ [buffer &&& 0xFF]).length = bytes.length + 1 := by simp
      have hmax : max (bytes ++ [buffer &&& 0xFF]).length size = max bytes.length size := by
        rw [hlen1]
        omega
      have hmod : buffer % 2 ^ bits = buffer % 256 + 256 * (buffer / 256 % 2 ^ (bits - 8)) := by
        have hbits : bits = 8 + (bits - 8) := by omega
        calc buffer % 2 ^ bits = buffer % (256 * 2 ^ (bits - 8)) := by
              rw [hbits, pow_add]; norm_num
        _ = buffer % 256 + 256 * (buffer / 256 % 2 ^ (bits - 8)) := Nat.mod_mul
      have hval : listVal (bytes ++ [buffer &&& 0xFF])
            + (buffer >>> 8) % 2 ^ (bits - 8) * 256 ^ (bytes ++ [buffer &&& 0xFF]).length
          = listVal bytes + buffer % 2 ^ bits * 256 ^ bytes.length := by
        rw [listVal_append_one]
        simp only [List.length_append, List.length_cons, List.length_nil]
        rw [and_255_eq_mod, shr8_eq_div, hmod]
        ring
      refine ⟨?_, fun hs => ?_, fun hall => ?_, ?_⟩
      · exact le_trans hstep.1 (le_of_eq hmax)
      · rw [hstep.2.1, hmax]
        rw [hlen1]
        have hdiv : bits / 8 = (bits - 8) / 8 + 1 := by omega
        omega
      · refine hstep.2.2.1 ?_
        intro b hb
        rcases List.mem_append.mp hb with h | h
        · exact hall b h
        · simp only [List.mem_singleton] at h
          subst h
          rw [and_255_eq_mod]
          exact Nat.mod_lt _ (by norm_num)
      · rw [hstep.2.2.2, hval]
    · simp only [drainSizedGo, if_neg hc]
      refine ⟨Nat.le_max_left _ _, fun hs => ?_, fun h => h, ?_⟩
      · rcases Decidable.not_and_iff_or_not.mp hc with h | h
        · omega
        · have hb8 : bits < 8 := by omega
          have : bits / 8 = 0 := Nat.div_eq_of_lt hb8
          omega
      · conv_lhs => rw [← Nat.add_zero (listVal bytes)]
        exact (Nat.ModEq.add_left _ (Nat.modEq_zero_iff_dvd.mpr ⟨buffer % 2 ^ bits, by ring⟩)).symm

/-- Value carried by the payload characters: each contributes its low 15 bits,
little-endian across characters. -/
def chunkVal : List Nat → Nat
  | [] => 0
  | c :: cs => (c &&& 0x7FFF) + 32768 * chunkVal cs

theorem pow256_eq (k : Nat) : (256 : Nat) ^ k = 2 ^ (8 * k) := by
  rw [show (256 : Nat) = 2 ^ 8 by norm_num, ← pow_mul]

/-- Invariants of the main character loop of `decode_optimized`: bits are
appended above the buffered bits, the combined little-endian value grows by
the characters' 15-bit payloads, and byte/bit accounting holds. -/
theorem decodeLoop_spec :
    ∀ cs bytes buffer bits, buffer < 2 ^ bits →
    (decodeLoop cs (bytes, buffer, bits)).2.1 < 2 ^ (decodeLoop cs (bytes, buffer, bits)).2.2 ∧
    listVal (decodeLoop cs (bytes, buffer, bits)).1
        + (decodeLoop cs (bytes, buffer, bits)).2.1
          * 256 ^ (decodeLoop cs (bytes, buffer, bits)).1.length
      = listVal bytes + (buffer + chunkVal cs * 2 ^ bits) * 256 ^ bytes.length ∧
    8 * (decodeLoop cs (bytes, buffer, bits)).1.length
        + (decodeLoop cs (bytes, buffer, bits)).2.2
      = 8 * bytes.length + bits + 15 * cs.length ∧
    (allBytes bytes → allBytes (decodeLoop cs (bytes, buffer, bits)).1) ∧
    (cs ≠ [] → 8 * (decodeLoop cs (bytes, buffer, bits)).1.length
      ≤ 8 * bytes.length + bits + 15 * (cs.length - 1)) := by
  intro cs
  induction cs with
  | nil =>
    intro bytes buffer bits hbuf
    refine ⟨hbuf, ?_, by simp [decodeLoop], fun h => h, fun h => absurd rfl h⟩
    simp [decodeLoop, chunkVal]
  | cons c cs ih =>
    intro bytes buffer bits hbuf
    obtain ⟨hdval, hdbits, hdlt8, hdall, hdbuf⟩ :=
      drainGo_spec bits bytes buffer bits (le_refl bits)
    have hstep_eq : decodeLoop (c :: cs) (bytes, buffer, bits)
        = decodeLoop cs ((drainGo bits bytes buffer bits).1,
            (drainGo bits bytes buffer bits).2.1
              ||| ((c &&& 0x7FFF) <<< (drainGo bits bytes buffer bits).2.2),
            (drainGo bits bytes buffer bits).2.2 + 15) := rfl
    generalize hgen : drainGo bits bytes buffer bits = d at hdval hdbits hdlt8 hdall hdbuf hstep_eq
    obtain ⟨dby, dbuf, dbits⟩ := d
    simp only at hdval hdbits hdlt8 hdall hdbuf hstep_eq
    have hdb : dbuf < 2 ^ dbits := hdbuf hbuf
    have hbufmod : buffer % 2 ^ bits = buffer := Nat.mod_eq_of_lt hbuf
    have hdmod : dbuf % 2 ^ dbits = dbuf := Nat.mod_eq_of_lt hdb
    rw [hbufmod, hdmod] at hdval
    have hc15 : c &&& 0x7FFF < 32768 := by
      rw [and_7FFF_eq_mod]
      exact Nat.mod_lt _ (by norm_num)
    have hnew : dbuf ||| ((c &&& 0x7FFF) <<< dbits) = dbuf + (c &&& 0x7FFF) * 2 ^ dbits :=
      lor_shiftLeft_eq_add _ _ hdb
    have hnewlt : dbuf + (c &&& 0x7FFF) * 2 ^ dbits < 2 ^ (dbits + 15) := by
      have h1 : dbuf + (c &&& 0x7FFF) * 2 ^ dbits
          < 2 ^ dbits + (c &&& 0x7FFF) * 2 ^ dbits := Nat.add_lt_add_right hdb _
      have h2 : 2 ^ dbits + (c &&& 0x7FFF) * 2 ^ dbits = (1 + (c &&& 0x7FFF)) * 2 ^ dbits := by
        ring
      have h3 : (1 + (c &&& 0x7FFF)) * 2 ^ dbits ≤ 32768 * 2 ^ dbits :=
        Nat.mul_le_mul_right _ (by omega)
      have h4 : (32768 : Nat) * 2 ^ dbits = 2 ^ (dbits + 15) := by
        rw [pow_add]; ring
      omega
    rw [hstep_eq, hnew]
    obtain ⟨ih1, ih2, ih3, ih4, ih5⟩ := ih dby (dbuf + (c &&& 0x7FFF) * 2 ^ dbits) (dbits + 15) hnewlt
    refine ⟨ih1, ?_, ?_, fun hall => ih4 (hdall hall), ?_⟩
    · rw [ih2]
      have hexp : (2 : Nat) ^ (dbits + 15) = 2 ^ dbits * 32768 := by
        rw [pow_add]; norm_num
      have hkey : 2 ^ dbits * 256 ^ dby.length = 2 ^ bits * 256 ^ bytes.length := by
        rw [pow256_eq, pow256_eq, ← pow_add, ← pow_add]
        congr 1
        omega
      rw [hexp]
      calc listVal dby + (dbuf + (c &&& 0x7FFF) * 2 ^ dbits
              + chunkVal cs * (2 ^ dbits * 32768)) * 256 ^ dby.length
          = (listVal dby + dbuf * 256 ^ dby.length)
            + ((c &&& 0x7FFF) + 32768 * chunkVal cs) * (2 ^ dbits * 256 ^ dby.length) := by
            ring
      _ = (listVal bytes + buffer * 256 ^ bytes.length)
            + ((c &&& 0x7FFF) + 32768 * chunkVal cs) * (2 ^ bits * 256 ^ bytes.length) := by
            rw [hdval, hkey]
      _ = listVal bytes + (buffer + chunkVal (c :: cs) * 2 ^ bits) * 256 ^ bytes.length := by
            simp only [chunkVal]
            ring
    · rw [ih3]
      simp only [List.length_cons]
      omega
    · intro _
      by_cases hcs : cs = []
      · subst hcs
        simp only [decodeLoop]
        simp only [List.length_cons, List.length_nil]
        omega
      · have := ih5 hcs
        have hlen : (c :: cs).length - 1 = cs.length := by simp
        rw [hlen]
        have hcspos : 1 ≤ cs.length := by
          cases cs with
          | nil => exact absurd rfl hcs
          | cons _ _ => simp
        omega

theorem one_le_utf8Size (c : Nat) : 1 ≤ utf8Size c := by
  unfold utf8Size
  by_cases h1 : c < 0x80
  · simp [h1]
  · by_cases h2 : c < 0x800
    · simp [h1, h2]
    · by_cases h3 : c < 0x10000
      · simp [h1, h2, h3]
      · simp [h1, h2, h3]

theorem strByteLen_cons_cons (a b : Nat) (l : List Nat) :
    ¬ strByteLen (a :: b :: l) < 2 := by
  have ha := one_le_utf8Size a
  have hb := one_le_utf8Size b
  simp only [strByteLen, List.map_cons, List.sum_cons]
  omega

/-- `decode_optimized` on a string of at least two characters, unfolded. -/
theorem decode_optimized_cons (c0 c1 : Nat) (rest : List Nat) :
    decode_optimized (c0 :: c1 :: rest)
      = some (drainSized (c0 ||| (c1 <<< 15)) (decodeLoop rest ([], 0, 0)).1
          (decodeLoop rest ([], 0, 0)).2.1 (decodeLoop rest ([], 0, 0)).2.2) := by
  simp only [decode_optimized, if_neg (strByteLen_cons_cons c0 c1 rest)]

/-- Modelled from the spec (§4.2, §8): the inverse of the 15-bits-per-character
bit-packing scheme. No encoder exists in the source; the spec defines it as
the inverse of `decode_optimized`'s unpacking: two header characters carrying
`low15` and `high15` of the byte length, then the bytes packed little-endian,
15 bits per character. -/
def chunk15 : Nat → Nat → List Nat
  | _, 0 => []
  | v, m + 1 => (v % 32768) :: chunk15 (v / 32768) m

/-- Modelled from the spec (§8): encoder inverse to `decode_optimized`. -/
def encode_optimized (bs : List Nat) : List Nat :=
  (bs.length &&& 0x7FFF) :: (bs.length >>> 15)
    :: chunk15 (listVal bs) ((8 * bs.length + 14) / 15)

theorem chunk15_length (m : Nat) : ∀ v, (chunk15 v m).length = m := by
  induction m with
  | zero => intro v; rfl
  | succ m ih => intro v; simp [chunk15, ih]

theorem chunkVal_chunk15 (m : Nat) : ∀ v, chunkVal (chunk15 v m) = v % 2 ^ (15 * m) := by
  induction m with
  | zero => intro v; simp [chunk15, chunkVal, Nat.mod_one]
  | succ m ih =>
    intro v
    simp only [chunk15, chunkVal, ih]
    rw [and_7FFF_eq_mod]
    have h1 : v % 32768 % 32768 = v % 32768 := by omega
    rw [h1]
    have h2 : (2 : Nat) ^ (15 * (m + 1)) = 32768 * 2 ^ (15 * m) := by
      rw [show 15 * (m + 1) = 15 + 15 * m by ring, pow_add]
      norm_num
    rw [h2, Nat.mod_mul]

/-- The header written by `encode_optimized` is read back as exactly the
original byte length. -/
theorem header_roundtrip (L : Nat) : (L &&& 0x7FFF) ||| ((L >>> 15) <<< 15) = L := by
  have h1 : L &&& 0x7FFF = L % 32768 := and_7FFF_eq_mod L
  have h2 : L >>> 15 = L / 32768 := by
    have := Nat.shiftRight_eq_div_pow L 15
    norm_num at this
    exact this
  have h3 : L % 32768 < 2 ^ 15 := by
    have := Nat.mod_lt L (show 0 < 32768 by norm_num)
    omega
  rw [h1, h2, lor_shiftLeft_eq_add _ _ h3]
  have : (2 : Nat) ^ 15 = 32768 := by norm_num
  rw [this]
  omega

theorem allBytes_nil : allBytes [] := by
  intro b hb
  exact absurd hb (List.not_mem_nil b)

/-- Round trip: decoding an encoded byte sequence returns the original
sequence, for every length. -/
theorem decode_encode (bs : List Nat) (hb : allBytes bs) :
    decode_optimized (encode_optimized bs) = some bs := by
  by_cases hL0 : bs.length = 0
  · have hnil : bs = [] := List.length_eq_zero.mp hL0
    subst hnil
    decide
  · have hL1 : 1 ≤ bs.length := by omega
    have hV : listVal bs < 2 ^ (8 * bs.length) := by
      have := listVal_lt bs hb
      rwa [pow256_eq] at this
    rw [encode_optimized, decode_optimized_cons, header_roundtrip]
    have hm1 : 8 * bs.length ≤ 15 * ((8 * bs.length + 14) / 15) := by omega
    have hm2 : 15 * ((8 * bs.length + 14) / 15) ≤ 8 * bs.length + 14 := by omega
    have hmpos : 1 ≤ (8 * bs.length + 14) / 15 := by omega
    have hrestlen : (chunk15 (listVal bs) ((8 * bs.length + 14) / 15)).length
        = (8 * bs.length + 14) / 15 := chunk15_length _ _
    have hrestne : chunk15 (listVal bs) ((8 * bs.length + 14) / 15) ≠ [] := by
      intro hcon
      rw [hcon] at hrestlen
      simp at hrestlen
      omega
    have hchunk : chunkVal (chunk15 (listVal bs) ((8 * bs.length + 14) / 15))
        = listVal bs := by
      rw [chunkVal_chunk15]
      exact Nat.mod_eq_of_lt (lt_of_lt_of_le hV (Nat.pow_le_pow_right (by norm_num) hm1))
    obtain ⟨l1, l2, l3, l4, l5⟩ :=
      decodeLoop_spec (chunk15 (listVal bs) ((8 * bs.length + 14) / 15)) [] 0 0
        (by norm_num)
    rw [hrestlen] at l3 l5
    rw [hchunk] at l2
    simp only [listVal, List.length_nil, pow_zero, mul_one, Nat.zero_add, zero_add,
      Nat.mul_zero, mul_zero] at l2 l3 l5
    generalize hgen : decodeLoop (chunk15 (listVal bs) ((8 * bs.length + 14) / 15))
        ([], 0, 0) = st at l1 l2 l3 l4 l5
    obtain ⟨B, u, t⟩ := st
    simp only at l1 l2 l3 l4 l5
    have hBall : allBytes B := l4 allBytes_nil
    have hBle : 8 * B.length ≤ 15 * ((8 * bs.length + 14) / 15) - 15 := by
      have := l5 hrestne
      omega
    have hBlt : B.length < bs.length := by omega
    obtain ⟨ds1, ds2, ds3, ds4⟩ := drainSizedGo_spec t bs.length B u t (le_refl t)
    have hfill : bs.length ≤ B.length + t / 8 := by omega
    have houtlen : (drainSizedGo t bs.length B u t).length = bs.length := by
      rw [ds2 hfill]
      omega
    have humod : u % 2 ^ t = u := Nat.mod_eq_of_lt (l1)
    rw [humod] at ds4
    have hval : listVal (drainSizedGo t bs.length B u t) = listVal bs := by
      have h256 : listVal bs < 256 ^ bs.length := listVal_lt bs hb
      have hout : listVal (drainSizedGo t bs.length B u t)
          < 256 ^ (drainSizedGo t bs.length B u t).length :=
        listVal_lt _ (ds3 hBall)
      rw [houtlen] at hout
      rw [houtlen] at ds4
      rw [Nat.mod_eq_of_lt hout] at ds4
      rw [l2] at ds4
      rw [Nat.mod_eq_of_lt h256] at ds4
      exact ds4
    rw [drainSized]
    congr 1
    exact listVal_inj _ _ (ds3 hBall) hb (by rw [houtlen]) hval

/-- C3 (amended): for every encoded string accepted by the Forge bit-unpacking
decoder, the declared output length is `size0 | (size1 << 15)` with the two
header characters contributing their full code-point values, and the returned
byte sequence is bounded by the larger of the declared length and the bytes
the per-character loop emits unconditionally (at most 15*(payload-1)/8
for `payload` non-header characters): only the final drain stops at the
declared length. -/
theorem c3_decode_optimized_length_bound (encoded bytes : List Nat)
    (h : decode_optimized encoded = some bytes) :
    bytes.length ≤ max (declaredSize encoded) (15 * (encoded.length - 3) / 8) := by
  cases encoded with
  | nil => simp [decode_optimized, strByteLen] at h
  | cons c0 tl =>
    cases tl with
    | nil =>
      simp only [decode_optimized] at h
      split at h <;> simp_all
    | cons c1 rest =>
      rw [decode_optimized_cons] at h
      have hbytes := Option.some.inj h
      obtain ⟨l1, l2, l3, l4, l5⟩ := decodeLoop_spec rest [] 0 0 (by norm_num)
      simp only [listVal, List.length_nil, pow_zero, mul_one, Nat.zero_add, zero_add,
        Nat.mul_zero, mul_zero] at l2 l3 l5
      generalize hgen : decodeLoop rest ([], 0, 0) = st at l1 l2 l3 l4 l5 hbytes
      obtain ⟨B, u, t⟩ := st
      simp only at l1 l2 l3 l4 l5 hbytes
      have hB : 8 * B.length ≤ 15 * (rest.length - 1) := by
        by_cases hr : rest = []
        · subst hr
          simp only [List.length_nil] at l3
          omega
        · have := l5 hr
          omega
      obtain ⟨ds1, hds2, hds3, hds4⟩ :=
        drainSizedGo_spec t (c0 ||| (c1 <<< 15)) B u t (le_refl t)
      rw [drainSized] at hbytes
      rw [← hbytes]
      simp only [declaredSize, List.length_cons]
      have hlen3 : rest.length + 1 + 1 - 3 = rest.length - 1 := by omega
      rw [hlen3]
      omega

/-- C3 counterexample to the claim as stated: a declared length of 0 with
three payload characters still returns three bytes, because the main loop
emits without consulting the declared length. -/
theorem c3_counterexample_exceeds_declared :
    decode_optimized [0, 0, 65, 65, 65] = some [65, 128, 32] ∧
    declaredSize [0, 0, 65, 65, 65] < [65, 128, 32].length := by
  decide

/-- Witness for `c3_decode_optimized_length_bound` at a concrete accepted
input. -/
theorem c3_decode_optimized_length_bound_witness :
    decode_optimized [0, 0, 65, 65, 65] = some [65, 128, 32] ∧
    [65, 128, 32].length
      ≤ max (declaredSize [0, 0, 65, 65, 65]) (15 * ([0, 0, 65, 65, 65].length - 3) / 8) :=
  ⟨by decide, c3_decode_optimized_length_bound [0, 0, 65, 65, 65] [65, 128, 32] (by decide)⟩

/-- C4: for every byte sequence of length 0, 1, 2 or 100, encoding with the
inverse of the 15-bits-per-character bit-packing scheme and then decoding
with the Forge decoder's unpacking step returns exactly the original
sequence. -/
theorem c4_encode_decode_roundtrip (bs : List Nat) (hb : allBytes bs)
    (_hlen : bs.length = 0 ∨ bs.length = 1 ∨ bs.length = 2 ∨ bs.length = 100) :
    decode_optimized (encode_optimized bs) = some bs :=
  decode_encode bs hb

/-- Witness for `c4_encode_decode_roundtrip` at a concrete length-2 input. -/
theorem c4_encode_decode_roundtrip_witness :
    allBytes [7, 200] ∧ decode_optimized (encode_optimized [7, 200]) = some [7, 200] :=
  ⟨by intro b hb; fin_cases hb <;> norm_num,
   c4_encode_decode_roundtrip [7, 200] (by intro b hb; fin_cases hb <;> norm_num) (by decide)⟩

/-!
### create_bulk_update (minecraft.rs lines 529-611) and
Database::add_to_bad_ips (database/mod.rs lines 196-228)

IPv4 addresses and ports are modelled as `Nat`. The hash cache
`LruCache<Ipv4Addr, (CachedIpHash, HashSet<u16>)>` is modelled as an
association list (its capacity of 2^20 is never reached in the scenarios the
claims describe, so eviction cannot occur); the port `HashSet` as a list.
`determine_hash` is pure in the update document, so its result (a fallible
computation, `anyhow::Result<u64>`) is passed in as an `Except Unit Nat`
consumed only in the branches where the source calls it.
-/

/-- `CachedIpHash` (database/mod.rs lines 36-41). -/
structure CachedIpHash where
  count : Option Nat
  hash : Nat
deriving DecidableEq

/-- The shared state touched by `create_bulk_update` and `add_to_bad_ips`,
plus a log of dispatched `add_to_bad_ips` calls (`promotions`). -/
structure ProcState where
  badIps : List Nat
  cache : List (Nat × CachedIpHash × List Nat)
  promotions : List Nat
deriving DecidableEq

/-- `LruCache::get_mut` lookup (first match). -/
def cacheFind (cache : List (Nat × CachedIpHash × List Nat)) (ip : Nat) :
    Option (CachedIpHash × List Nat) :=
  (cache.find? (fun e => e.1 = ip)).map (fun e => e.2)

/-- In-place mutation of the entry found by `get_mut`. -/
def cacheSet : List (Nat × CachedIpHash × List Nat) → Nat → CachedIpHash × List Nat →
    List (Nat × CachedIpHash × List Nat)
  | [], _, _ => []
  | e :: rest, ip, v => if e.1 = ip then (ip, v) :: rest else e :: cacheSet rest ip v

/-- `Database::add_to_bad_ips`: inserts the address into the in-memory bad
set (a `HashSet`), upserts the durable bad-address record and cascade-deletes
the non-canonical-port records; the durable effects are summarised by
appending the address to the `promotions` log, one entry per dispatched
call. -/
def add_to_bad_ips (s : ProcState) (ip : Nat) : ProcState :=
  { s with badIps := if ip ∈ s.badIps then s.badIps else ip :: s.badIps,
           promotions := s.promotions ++ [ip] }

/-- `create_bulk_update` (minecraft.rs lines 529-611). Returns the
`anyhow::Result<BulkUpdate>` (a produced upsert is keyed by address and
port) together with the state after the call, including the effect of the
spawned `add_to_bad_ips` task. -/
def create_bulk_update (s : ProcState) (ip port : Nat) (hashRes : Except Unit Nat) :
    Except String (Nat × Nat) × ProcState :=
  if ip ∈ s.badIps ∧ port ≠ 25565 then (Except.error "bad ip", s)
  else
    match cacheFind s.cache ip with
    | some (data, ports) =>
      if port ∈ ports then (Except.ok (ip, port), s)
      else
        match data.count with
        | none => (Except.ok (ip, port), s)
        | some c =>
          match hashRes with
          | Except.error _ => (Except.error "hash", s)
          | Except.ok h =>
            if h = data.hash then
              if c + 1 ≥ 100 then
                (Except.error "bad ip target",
                 add_to_bad_ips
                   { s with cache := cacheSet s.cache ip (⟨some (c + 1), data.hash⟩, port :: ports) }
                   ip)
              else
                (Except.ok (ip, port),
                 { s with cache := cacheSet s.cache ip (⟨some (c + 1), data.hash⟩, port :: ports) })
            else
              (Except.ok (ip, port),
               { s with cache := cacheSet s.cache ip (⟨none, data.hash⟩, ports) })
    | none =>
      match hashRes with
      | Except.error _ => (Except.error "hash", s)
      | Except.ok h =>
        (Except.ok (ip, port),
         { s with cache := (ip, ⟨some 1, h⟩, [port]) :: s.cache })

/-- Sequential processing of a batch of targets, each through
`create_bulk_update`, threading the shared state. -/
def processBatch : ProcState → List (Nat × Nat × Except Unit Nat) →
    List (Except String (Nat × Nat)) × ProcState
  | s, [] => ([], s)
  | s, (ip, port, hres) :: ts =>
    let r := create_bulk_update s ip port hres
    let rest := processBatch r.2 ts
    (r.1 :: rest.1, rest.2)

/-- A batch of responses for one address, one per port, all with the same
content hash. -/
def targetsFor (ip h : Nat) (ports : List Nat) : List (Nat × Nat × Except Unit Nat) :=
  ports.map (fun p => (ip, p, Except.ok h))

theorem cacheFind_cons_ne (e : Nat × CachedIpHash × List Nat)
    (rest : List (Nat × CachedIpHash × List Nat)) (ip : Nat) (he : ¬ e.1 = ip) :
    cacheFind (e :: rest) ip = cacheFind rest ip := by
  simp [cacheFind, List.find?_cons_of_neg, he]

theorem cacheFind_cacheSet (cache : List (Nat × CachedIpHash × List Nat)) (ip : Nat)
    (v w : CachedIpHash × List Nat) (h : cacheFind cache ip = some w) :
    cacheFind (cacheSet cache ip v) ip = some v := by
  induction cache with
  | nil => simp [cacheFind] at h
  | cons e rest ih =>
    by_cases he : e.1 = ip
    · simp [cacheFind, cacheSet, he]
    · rw [cacheFind_cons_ne e rest ip he] at h
      rw [cacheSet, if_neg he, cacheFind_cons_ne e _ ip he]
      exact ih h

theorem create_bulk_update_fresh (s : ProcState) (ip port h : Nat)
    (hbad : ¬(ip ∈ s.badIps ∧ port ≠ 25565)) (hfind : cacheFind s.cache ip = none) :
    create_bulk_update s ip port (Except.ok h)
      = (Except.ok (ip, port), { s with cache := (ip, ⟨some 1, h⟩, [port]) :: s.cache }) := by
  simp [create_bulk_update, hbad, hfind]

theorem create_bulk_update_seen (s : ProcState) (ip port : Nat) (hres : Except Unit Nat)
    (entry : CachedIpHash) (seen : List Nat)
    (hbad : ¬(ip ∈ s.badIps ∧ port ≠ 25565))
    (hfind : cacheFind s.cache ip = some (entry, seen)) (hp : port ∈ seen) :
    create_bulk_update s ip port hres = (Except.ok (ip, port), s) := by
  simp [create_bulk_update, hbad, hfind, hp]

theorem create_bulk_update_count_none (s : ProcState) (ip port : Nat)
    (hres : Except Unit Nat) (h0 : Nat) (seen : List Nat)
    (hbad : ¬(ip ∈ s.badIps ∧ port ≠ 25565))
    (hfind : cacheFind s.cache ip = some (⟨none, h0⟩, seen)) (hp : port ∉ seen) :
    create_bulk_update s ip port hres = (Except.ok (ip, port), s) := by
  simp [create_bulk_update, hbad, hfind, hp]

theorem create_bulk_update_incr (s : ProcState) (ip port h c h0 : Nat) (seen : List Nat)
    (hbad : ¬(ip ∈ s.badIps ∧ port ≠ 25565))
    (hfind : cacheFind s.cache ip = some (⟨some c, h0⟩, seen)) (hp : port ∉ seen)
    (hh : h = h0) (hlt : c + 1 < 100) :
    create_bulk_update s ip port (Except.ok h)
      = (Except.ok (ip, port),
         { s with cache := cacheSet s.cache ip (⟨some (c + 1), h0⟩, port :: seen) }) := by
  simp [create_bulk_update, hbad, hfind, hp, hh]
  omega

theorem create_bulk_update_promote (s : ProcState) (ip port h c h0 : Nat) (seen : List Nat)
    (hbad : ¬(ip ∈ s.badIps ∧ port ≠ 25565))
    (hfind : cacheFind s.cache ip = some (⟨some c, h0⟩, seen)) (hp : port ∉ seen)
    (hh : h = h0) (hge : c + 1 ≥ 100) :
    create_bulk_update s ip port (Except.ok h)
      = (Except.error "bad ip target",
         add_to_bad_ips
           { s with cache := cacheSet s.cache ip (⟨some (c + 1), h0⟩, port :: seen) } ip) := by
  simp [create_bulk_update, hbad, hfind, hp, hh]
  omega

theorem create_bulk_update_mismatch (s : ProcState) (ip port h c h0 : Nat) (seen : List Nat)
    (hbad : ¬(ip ∈ s.badIps ∧ port ≠ 25565))
    (hfind : cacheFind s.cache ip = some (⟨some c, h0⟩, seen)) (hp : port ∉ seen)
    (hh : h ≠ h0) :
    create_bulk_update s ip port (Except.ok h)
      = (Except.ok (ip, port),
         { s with cache := cacheSet s.cache ip (⟨none, h0⟩, seen) }) := by
  simp [create_bulk_update, hbad, hfind, hp, hh]

/-- Running a same-hash batch of fresh distinct ports against an existing
counting entry: the count grows by the number of ports, and `add_to_bad_ips`
is dispatched exactly when the count reaches 100 (necessarily at the last
port). -/
theorem run_same_hash (ip h : Nat) :
    ∀ (ports : List Nat) (s : ProcState) (c : Nat) (seen : List Nat),
    cacheFind s.cache ip = some (⟨some c, h⟩, seen) →
    ip ∉ s.badIps →
    ports.Nodup →
    (∀ p ∈ ports, p ∉ seen) →
    c + ports.length ≤ 100 →
    (processBatch s (targetsFor ip h ports)).2.promotions
        = s.promotions ++ (if c + ports.length = 100 ∧ ports ≠ [] then [ip] else []) ∧
    (c + ports.length < 100 →
      (processBatch s (targetsFor ip h ports)).2.badIps = s.badIps ∧
      cacheFind (processBatch s (targetsFor ip h ports)).2.cache ip
        = some (⟨some (c + ports.length), h⟩, ports.reverse ++ seen)) := by
  intro ports
  induction ports with
  | nil =>
    intro s c seen hfind hbad hnd hfresh hle
    simp only [targetsFor, List.map_nil, processBatch, List.length_nil, Nat.add_zero,
      List.reverse_nil, List.nil_append]
    refine ⟨by simp, fun _ => ⟨?_, ?_⟩⟩
    · trivial
    · exact hfind
  | cons p ps ih =>
    intro s c seen hfind hbad hnd hfresh hle
    have hbadc : ¬(ip ∈ s.badIps ∧ p ≠ 25565) := fun hc => hbad hc.1
    have hpfresh : p ∉ seen := hfresh p (List.mem_cons_self p ps)
    have hstep : targetsFor ip h (p :: ps) = (ip, p, Except.ok h) :: targetsFor ip h ps := rfl
    by_cases hcr : c + 1 < 100
    · have hcbu := create_bulk_update_incr s ip p h c h seen hbadc hfind hpfresh rfl hcr
      have hfind2 : cacheFind (cacheSet s.cache ip (⟨some (c + 1), h⟩, p :: seen)) ip
          = some (⟨some (c + 1), h⟩, p :: seen) := cacheFind_cacheSet _ _ _ _ hfind
      have hih := ih { s with cache := cacheSet s.cache ip (⟨some (c + 1), h⟩, p :: seen) }
        (c + 1) (p :: seen) hfind2 hbad (List.Nodup.of_cons hnd)
        (fun q hq => by
          intro hmem
          rcases List.mem_cons.mp hmem with hq1 | hq2
          · subst hq1
            exact (List.nodup_cons.mp hnd).1 hq
          · exact hfresh q (List.mem_cons_of_mem _ hq) hq2)
        (by simp only [List.length_cons] at hle ⊢; omega)
      rw [hstep]
      simp only [processBatch, hcbu]
      constructor
      · rw [hih.1]
        have hiff : ((c + 1) + ps.length = 100 ∧ ps ≠ [])
            ↔ (c + (p :: ps).length = 100 ∧ (p :: ps) ≠ []) := by
          simp only [List.length_cons, ne_eq]
          constructor
          · rintro ⟨h1, _⟩
            exact ⟨by omega, by simp⟩
          · rintro ⟨h1, _⟩
            refine ⟨by omega, ?_⟩
            intro hcon
            subst hcon
            simp only [List.length_nil] at h1
            omega
        exact congrArg (s.promotions ++ ·) (if_congr hiff rfl rfl)
      · intro hlt
        simp only [List.length_cons] at hlt
        have hih2 := hih.2 (by omega)
        refine ⟨hih2.1, ?_⟩
        have harith : c + 1 + ps.length = c + (p :: ps).length := by
          simp only [List.length_cons]
          omega
        have hrev : ps.reverse ++ (p :: seen) = (p :: ps).reverse ++ seen := by
          simp [List.reverse_cons, List.append_assoc]
        rw [harith, hrev] at hih2
        exact hih2.2
    · have hps : ps = [] := by
        simp only [List.length_cons] at hle
        have : ps.length = 0 := by omega
        exact List.length_eq_zero.mp this
      subst hps
      have hc100 : c + 1 = 100 := by
        simp only [List.length_cons, List.length_nil] at hle
        omega
      have hcbu := create_bulk_update_promote s ip p h c h seen hbadc hfind hpfresh rfl
        (by omega)
      rw [hstep]
      simp only [processBatch, hcbu, targetsFor, List.map_nil]
      constructor
      · simp only [add_to_bad_ips, List.length_cons, List.length_nil]
        rw [if_pos ⟨by omega, by simp⟩]
      · intro hlt
        simp only [List.length_cons, List.length_nil] at hlt
        omega

theorem cacheFind_cons_self (ip : Nat) (v : CachedIpHash × List Nat)
    (rest : List (Nat × CachedIpHash × List Nat)) :
    cacheFind ((ip, v) :: rest) ip = some v := by
  simp [cacheFind]

/-- Once an address's entry has `count = None`, no batch of responses for
that address changes the shared state at all. -/
theorem run_count_none (ip : Nat) :
    ∀ (batch : List (Nat × Nat × Except Unit Nat)) (s : ProcState) (h0 : Nat)
      (seen : List Nat),
    (∀ t ∈ batch, t.1 = ip) →
    cacheFind s.cache ip = some (⟨none, h0⟩, seen) →
    (processBatch s batch).2 = s := by
  intro batch
  induction batch with
  | nil => intro s h0 seen _ _; rfl
  | cons t ts ih =>
    intro s h0 seen hall hfind
    obtain ⟨tip, tport, thres⟩ := t
    have htip : tip = ip := hall (tip, tport, thres) (List.mem_cons_self _ _)
    have hstate : (create_bulk_update s ip tport thres).2 = s := by
      unfold create_bulk_update
      by_cases hb : ip ∈ s.badIps ∧ tport ≠ 25565
      · simp [hb]
      · rw [if_neg hb, hfind]
        by_cases hp : tport ∈ seen
        · simp [hp]
        · simp [hp]
    simp only [processBatch]
    rw [htip, hstate]
    exact ih s h0 seen (fun t ht => hall t (List.mem_cons_of_mem _ ht)) hfind

theorem processBatch_append :
    ∀ (a b : List (Nat × Nat × Except Unit Nat)) (s : ProcState),
    processBatch s (a ++ b)
      = ((processBatch s a).1 ++ (processBatch (processBatch s a).2 b).1,
         (processBatch (processBatch s a).2 b).2) := by
  intro a
  induction a with
  | nil => intro b s; simp [processBatch]
  | cons t ts ih =>
    intro b s
    obtain ⟨tip, tport, thres⟩ := t
    simp only [List.cons_append, processBatch]
    have e : ts.append b = ts ++ b := rfl
    rw [e, ih]

/-- One call changes the bad-address set at most by inserting the target's
own address (on promotion). -/
theorem create_bulk_update_badIps (s : ProcState) (tip tport : Nat)
    (thres : Except Unit Nat) :
    (create_bulk_update s tip tport thres).2.badIps = s.badIps ∨
    (create_bulk_update s tip tport thres).2.badIps = tip :: s.badIps := by
  unfold create_bulk_update
  by_cases hbp : tip ∈ s.badIps ∧ tport ≠ 25565
  · left; simp [hbp]
  · rw [if_neg hbp]
    cases hf : cacheFind s.cache tip with
    | none =>
      cases thres with
      | error e => left; rfl
      | ok hh => left; rfl
    | some entry =>
      obtain ⟨⟨dcount, dhash⟩, ports⟩ := entry
      dsimp only
      by_cases hp : tport ∈ ports
      · left; simp [hp]
      · rw [if_neg hp]
        cases dcount with
        | none => left; rfl
        | some c =>
          cases thres with
          | error e => left; rfl
          | ok hh =>
            dsimp only
            by_cases hhh : hh = dhash
            · rw [if_pos hhh]
              by_cases h100 : c + 1 ≥ 100
              · rw [if_pos h100]
                simp only [add_to_bad_ips]
                by_cases htip : tip ∈ s.badIps
                · left; simp [htip]
                · right; simp [htip]
              · rw [if_neg h100]
                left; rfl
            · rw [if_neg hhh]
              left; rfl

theorem processBatch_badIps_mono :
    ∀ (batch : List (Nat × Nat × Except Unit Nat)) (s : ProcState) (x : Nat),
    x ∈ s.badIps → x ∈ (processBatch s batch).2.badIps := by
  intro batch
  induction batch with
  | nil => intro s x hx; exact hx
  | cons t ts ih =>
    intro s x hx
    obtain ⟨tip, tport, thres⟩ := t
    simp only [processBatch]
    refine ih _ x ?_
    rcases create_bulk_update_badIps s tip tport thres with h | h
    · rw [h]; exact hx
    · rw [h]; exact List.mem_cons_of_mem _ hx

/-- C7: a target whose address is in the bad-address set, on a non-canonical
port, is rejected with an explicit failure, without any state change (hash
cache, bad set, promotion log), and without affecting the results of the
other targets of the batch. -/
theorem c7_bad_ip_non_canonical_rejected (s : ProcState) (ip port : Nat)
    (hres : Except Unit Nat) (hbad : ip ∈ s.badIps) (hport : port ≠ 25565) :
    create_bulk_update s ip port hres = (Except.error "bad ip", s) ∧
    ∀ pre post,
      processBatch s (pre ++ (ip, port, hres) :: post)
        = ((processBatch s pre).1 ++ Except.error "bad ip"
             :: (processBatch (processBatch s pre).2 post).1,
           (processBatch s (pre ++ post)).2) := by
  constructor
  · simp [create_bulk_update, hbad, hport]
  · intro pre post
    have hbad2 : ip ∈ (processBatch s pre).2.badIps := processBatch_badIps_mono pre s ip hbad
    have hstep : create_bulk_update (processBatch s pre).2 ip port hres
        = (Except.error "bad ip", (processBatch s pre).2) := by
      simp [create_bulk_update, hbad2, hport]
    rw [processBatch_append pre ((ip, port, hres) :: post) s]
    rw [processBatch_append pre post s]
    simp only [processBatch, hstep]

/-- Witness for `c7_bad_ip_non_canonical_rejected` at a concrete state. -/
theorem c7_bad_ip_non_canonical_rejected_witness :
    create_bulk_update ⟨[9], [], []⟩ 9 8080 (Except.ok 5) = (Except.error "bad ip", ⟨[9], [], []⟩) :=
  (c7_bad_ip_non_canonical_rejected ⟨[9], [], []⟩ 9 8080 (Except.ok 5)
    (by simp) (by decide)).1

theorem targetsFor_fst (ip h : Nat) (l : List Nat) : ∀ t ∈ targetsFor ip h l, t.1 = ip := by
  intro t ht
  simp only [targetsFor, List.mem_map] at ht
  obtain ⟨x, _, rfl⟩ := ht
  rfl

/-- One divergent hash among the responses for an address permanently
disables its tracking: the entry's count becomes `None`, no promotion is
ever dispatched, and any number of further same-hash responses leave the
state unchanged. -/
theorem run_diverged (ip h h' : Nat) (ports1 : List Nat) (p : Nat) (ports2 more : List Nat)
    (hnd : (ports1 ++ p :: ports2).Nodup) (hlen : (ports1 ++ p :: ports2).length = 100)
    (hne : h' ≠ h) :
    (processBatch ⟨[], [], []⟩
        (targetsFor ip h ports1 ++ (ip, p, Except.ok h') :: (targetsFor ip h ports2
          ++ targetsFor ip h more))).2.promotions = [] ∧
    ∃ h0 seen, cacheFind (processBatch ⟨[], [], []⟩
        (targetsFor ip h ports1 ++ (ip, p, Except.ok h') :: (targetsFor ip h ports2
          ++ targetsFor ip h more))).2.cache ip = some (⟨none, h0⟩, seen) := by
  obtain ⟨hnd1, hnd2, hdisj⟩ := List.nodup_append.mp hnd
  have hpn1 : p ∉ ports1 := fun hp1 => hdisj hp1 (List.mem_cons_self _ _)
  have hrest_fst : ∀ t ∈ targetsFor ip h ports2 ++ targetsFor ip h more, t.1 = ip := by
    intro t ht
    rcases List.mem_append.mp ht with h1 | h1
    · exact targetsFor_fst ip h ports2 t h1
    · exact targetsFor_fst ip h more t h1
  cases ports1 with
  | nil =>
    cases ports2 with
    | nil => simp at hlen
    | cons q rest2 =>
      have hqp : q ≠ p := by
        intro hc
        subst hc
        exact (List.nodup_cons.mp hnd2).1 (List.mem_cons_self _ _)
      have hcbu1 := create_bulk_update_fresh ⟨[], [], []⟩ ip p h' (by simp) rfl
      have hfind1 : cacheFind ((⟨[], [(ip, ⟨some 1, h'⟩, [p])], []⟩ : ProcState)).cache ip
          = some (⟨some 1, h'⟩, [p]) := cacheFind_cons_self ip _ []
      have hcbu2 := create_bulk_update_mismatch ⟨[], [(ip, ⟨some 1, h'⟩, [p])], []⟩ ip q h 1 h'
        [p] (by simp) hfind1 (by simp [hqp]) (Ne.symm hne)
      have hfind2 : cacheFind
          (cacheSet (⟨[], [(ip, ⟨some 1, h'⟩, [p])], []⟩ : ProcState).cache ip (⟨none, h'⟩, [p])) ip
          = some (⟨none, h'⟩, [p]) := cacheFind_cacheSet _ _ _ _ hfind1
      have hstate : (processBatch ⟨[], [], []⟩
          (targetsFor ip h ([] : List Nat) ++ (ip, p, Except.ok h') :: (targetsFor ip h (q :: rest2)
            ++ targetsFor ip h more))).2
          = { (⟨[], [(ip, ⟨some 1, h'⟩, [p])], []⟩ : ProcState) with
              cache := cacheSet (⟨[], [(ip, ⟨some 1, h'⟩, [p])], []⟩ : ProcState).cache ip
                (⟨none, h'⟩, [p]) } := by
        have e0 : targetsFor ip h ([] : List Nat) ++ (ip, p, Except.ok h') :: (targetsFor ip h (q :: rest2)
              ++ targetsFor ip h more)
            = (ip, p, Except.ok h') :: (ip, q, Except.ok h)
              :: (targetsFor ip h rest2 ++ targetsFor ip h more) := rfl
        rw [e0]
        simp only [processBatch, hcbu1, hcbu2]
        refine run_count_none ip _ _ h' [p] ?_ hfind2
        intro t ht
        rcases List.mem_append.mp ht with h1 | h1
        · exact targetsFor_fst ip h rest2 t h1
        · exact targetsFor_fst ip h more t h1
      rw [hstate]
      exact ⟨rfl, h', [p], hfind2⟩
  | cons q rest1 =>
    have hq_rest1 : q ∉ rest1 := (List.nodup_cons.mp hnd1).1
    have hlen1 : 1 + rest1.length ≤ 99 := by
      simp only [List.length_append, List.length_cons] at hlen
      omega
    have hcbu1 : create_bulk_update ⟨[], [], []⟩ ip q (Except.ok h)
        = (Except.ok (ip, q), (⟨[], [(ip, ⟨some 1, h⟩, [q])], []⟩ : ProcState)) :=
      create_bulk_update_fresh ⟨[], [], []⟩ ip q h (by simp) rfl
    have hfind1 : cacheFind ((⟨[], [(ip, ⟨some 1, h⟩, [q])], []⟩ : ProcState)).cache ip
        = some (⟨some 1, h⟩, [q]) := cacheFind_cons_self ip _ []
    obtain ⟨hprom, hrun⟩ := run_same_hash ip h rest1 ⟨[], [(ip, ⟨some 1, h⟩, [q])], []⟩ 1 [q]
      hfind1 (by simp) (List.Nodup.of_cons hnd1)
      (fun x hx => by
        simp only [List.mem_singleton]
        intro hxq
        subst hxq
        exact hq_rest1 hx)
      (by omega)
    obtain ⟨hbadA, hfindA⟩ := hrun (by omega)
    have hpromA : (processBatch (⟨[], [(ip, ⟨some 1, h⟩, [q])], []⟩ : ProcState)
        (targetsFor ip h rest1)).2.promotions = [] := by
      have hcond : ¬(1 + rest1.length = 100 ∧ rest1 ≠ []) := by
        rintro ⟨hc, -⟩
        omega
      rw [hprom, if_neg hcond]
      simp
    have hpA : p ∉ rest1.reverse ++ [q] := by
      intro hc
      rcases List.mem_append.mp hc with h1 | h1
      · exact hpn1 (List.mem_cons_of_mem _ (List.mem_reverse.mp h1))
      · simp only [List.mem_singleton] at h1
        subst h1
        exact hpn1 (List.mem_cons_self _ _)
    have hbadcA : ¬(ip ∈ (processBatch (⟨[], [(ip, ⟨some 1, h⟩, [q])], []⟩ : ProcState)
        (targetsFor ip h rest1)).2.badIps ∧ p ≠ 25565) := by
      rw [hbadA]
      simp
    have hcbu_div := create_bulk_update_mismatch
      (processBatch (⟨[], [(ip, ⟨some 1, h⟩, [q])], []⟩ : ProcState) (targetsFor ip h rest1)).2
      ip p h' (1 + rest1.length) h (rest1.reverse ++ [q]) hbadcA hfindA hpA hne
    have hfind_m : cacheFind (cacheSet (processBatch (⟨[], [(ip, ⟨some 1, h⟩, [q])], []⟩ : ProcState)
          (targetsFor ip h rest1)).2.cache ip (⟨none, h⟩, rest1.reverse ++ [q])) ip
        = some (⟨none, h⟩, rest1.reverse ++ [q]) := cacheFind_cacheSet _ _ _ _ hfindA
    have hstate : (processBatch ⟨[], [], []⟩
        (targetsFor ip h (q :: rest1) ++ (ip, p, Except.ok h') :: (targetsFor ip h ports2
          ++ targetsFor ip h more))).2
        = { (processBatch (⟨[], [(ip, ⟨some 1, h⟩, [q])], []⟩ : ProcState)
              (targetsFor ip h rest1)).2 with
            cache := cacheSet (processBatch (⟨[], [(ip, ⟨some 1, h⟩, [q])], []⟩ : ProcState)
              (targetsFor ip h rest1)).2.cache ip (⟨none, h⟩, rest1.reverse ++ [q]) } := by
      have e0 : targetsFor ip h (q :: rest1) = (ip, q, Except.ok h) :: targetsFor ip h rest1 := rfl
      rw [e0, List.cons_append]
      simp only [processBatch, hcbu1]
      rw [processBatch_append]
      simp only [processBatch, hcbu_div]
      refine run_count_none ip _ _ h (rest1.reverse ++ [q]) hrest_fst hfind_m
    rw [hstate]
    refine ⟨hpromA, h, rest1.reverse ++ [q], hfind_m⟩

/-- C2: for one address, 100 distinct ports all yielding the identical hash
dispatch `add_to_bad_ips` (the durable insert with its cascade delete)
exactly once; 99 such ports never dispatch it; one divergent hash among the
100 sets the entry's count to `None` and no promotion is ever dispatched, no
matter how many further identical responses arrive. -/
theorem c2_promotion_threshold (ip h : Nat) :
    (∀ ports : List Nat, ports.Nodup → ports.length = 100 →
      (processBatch ⟨[], [], []⟩ (targetsFor ip h ports)).2.promotions = [ip]) ∧
    (∀ ports : List Nat, ports.Nodup → ports.length = 99 →
      (processBatch ⟨[], [], []⟩ (targetsFor ip h ports)).2.promotions = []) ∧
    (∀ (ports1 : List Nat) (p : Nat) (ports2 : List Nat) (h' : Nat) (more : List Nat),
      (ports1 ++ p :: ports2).Nodup → (ports1 ++ p :: ports2).length = 100 → h' ≠ h →
      (processBatch ⟨[], [], []⟩
          (targetsFor ip h ports1 ++ (ip, p, Except.ok h') :: (targetsFor ip h ports2
            ++ targetsFor ip h more))).2.promotions = [] ∧
      ∃ h0 seen, cacheFind (processBatch ⟨[], [], []⟩
          (targetsFor ip h ports1 ++ (ip, p, Except.ok h') :: (targetsFor ip h ports2
            ++ targetsFor ip h more))).2.cache ip = some (⟨none, h0⟩, seen)) := by
  refine ⟨?_, ?_, ?_⟩
  · intro ports hnd hlen
    cases ports with
    | nil => simp at hlen
    | cons q ps =>
      have hlen99 : ps.length = 99 := by simpa using hlen
      have hcbu : create_bulk_update ⟨[], [], []⟩ ip q (Except.ok h)
          = (Except.ok (ip, q), (⟨[], [(ip, ⟨some 1, h⟩, [q])], []⟩ : ProcState)) :=
        create_bulk_update_fresh ⟨[], [], []⟩ ip q h (by simp) rfl
      have e0 : targetsFor ip h (q :: ps) = (ip, q, Except.ok h) :: targetsFor ip h ps := rfl
      rw [e0]
      simp only [processBatch, hcbu]
      obtain ⟨hprom, -⟩ := run_same_hash ip h ps ⟨[], [(ip, ⟨some 1, h⟩, [q])], []⟩ 1 [q]
        (cacheFind_cons_self ip _ []) (by simp) (List.Nodup.of_cons hnd)
        (fun x hx => by
          simp only [List.mem_singleton]
          intro hxq
          subst hxq
          exact (List.nodup_cons.mp hnd).1 hx)
        (by omega)
      rw [hprom, hlen99]
      have hps_ne : ps ≠ [] := by
        intro hc
        rw [hc] at hlen99
        simp at hlen99
      rw [if_pos ⟨by norm_num, hps_ne⟩]
      rfl
  · intro ports hnd hlen
    cases ports with
    | nil => simp at hlen
    | cons q ps =>
      have hlen98 : ps.length = 98 := by simpa using hlen
      have hcbu : create_bulk_update ⟨[], [], []⟩ ip q (Except.ok h)
          = (Except.ok (ip, q), (⟨[], [(ip, ⟨some 1, h⟩, [q])], []⟩ : ProcState)) :=
        create_bulk_update_fresh ⟨[], [], []⟩ ip q h (by simp) rfl
      have e0 : targetsFor ip h (q :: ps) = (ip, q, Except.ok h) :: targetsFor ip h ps := rfl
      rw [e0]
      simp only [processBatch, hcbu]
      obtain ⟨hprom, -⟩ := run_same_hash ip h ps ⟨[], [(ip, ⟨some 1, h⟩, [q])], []⟩ 1 [q]
        (cacheFind_cons_self ip _ []) (by simp) (List.Nodup.of_cons hnd)
        (fun x hx => by
          simp only [List.mem_singleton]
          intro hxq
          subst hxq
          exact (List.nodup_cons.mp hnd).1 hx)
        (by omega)
      rw [hprom, hlen98]
      rw [if_neg (by rintro ⟨hc, -⟩; omega)]
      rfl
  · intro ports1 p ports2 h' more hnd hlen hne
    exact run_diverged ip h h' ports1 p ports2 more hnd hlen hne

/-- Witness for `c2_promotion_threshold`: concrete instantiations of the
three scenarios. -/
theorem c2_promotion_threshold_witness :
    (processBatch ⟨[], [], []⟩ (targetsFor 1 5 (List.range 100))).2.promotions = [1] ∧
    (processBatch ⟨[], [], []⟩ (targetsFor 1 5 (List.range 99))).2.promotions = [] ∧
    (processBatch ⟨[], [], []⟩
        (targetsFor 1 5 (List.range 40) ++ (1, 40, Except.ok 6) :: (targetsFor 1 5
          (List.drop 41 (List.range 100)) ++ targetsFor 1 5 [200, 201]))).2.promotions = [] :=
  ⟨(c2_promotion_threshold 1 5).1 (List.range 100) (List.nodup_range 100) (by simp),
   (c2_promotion_threshold 1 5).2.1 (List.range 99) (List.nodup_range 99) (by simp),
   ((c2_promotion_threshold 1 5).2.2 (List.range 40) 40 (List.drop 41 (List.range 100)) 6
      [200, 201] (by decide) (by decide) (by decide)).1⟩

/-- C10 (amended): for an address already in the bad-address set, a response
on the canonical port 25565 is never rejected by the early bad-ip gate: if
the port was already counted or tracking is disabled, it produces a pending
upsert with no state change; but if this very response crosses the promotion
threshold again, `add_to_bad_ips` is re-dispatched for the already-promoted
address and that update is rejected (so such a response does not always
yield an upsert). -/
theorem c10_canonical_port_bad_ip (s : ProcState) (ip : Nat) (hres : Except Unit Nat)
    (_hbad : ip ∈ s.badIps) :
    (∀ entry seen, cacheFind s.cache ip = some (entry, seen) → 25565 ∈ seen →
        create_bulk_update s ip 25565 hres = (Except.ok (ip, 25565), s)) ∧
    (∀ h0 seen, cacheFind s.cache ip = some (⟨none, h0⟩, seen) → 25565 ∉ seen →
        create_bulk_update s ip 25565 hres = (Except.ok (ip, 25565), s)) ∧
    (∀ c hh seen, cacheFind s.cache ip = some (⟨some c, hh⟩, seen) → 25565 ∉ seen →
        hres = Except.ok hh → 99 ≤ c →
        (create_bulk_update s ip 25565 hres).1 = Except.error "bad ip target" ∧
        (create_bulk_update s ip 25565 hres).2.promotions = s.promotions ++ [ip]) := by
  have hbadc : ¬(ip ∈ s.badIps ∧ (25565 : Nat) ≠ 25565) := by simp
  refine ⟨fun entry seen hf hp => create_bulk_update_seen s ip 25565 hres entry seen hbadc hf hp,
          fun h0 seen hf hp => create_bulk_update_count_none s ip 25565 hres h0 seen hbadc hf hp,
          fun c hh seen hf hp hreq hc => ?_⟩
  subst hreq
  have hstep := create_bulk_update_promote s ip 25565 hh c hh seen hbadc hf hp rfl (by omega)
  rw [hstep]
  exact ⟨rfl, by simp [add_to_bad_ips]⟩

/-- C10 counterexample to the claim as stated: a bad address on the
canonical port whose response crosses the threshold again is rejected (no
pending upsert) while `add_to_bad_ips` is dispatched once more. -/
theorem c10_counterexample_rejected_on_canonical :
    3 ∈ (⟨[3], [(3, ⟨some 100, 5⟩, [7])], []⟩ : ProcState).badIps ∧
    (create_bulk_update ⟨[3], [(3, ⟨some 100, 5⟩, [7])], []⟩ 3 25565 (Except.ok 5)).1
      = Except.error "bad ip target" ∧
    (create_bulk_update ⟨[3], [(3, ⟨some 100, 5⟩, [7])], []⟩ 3 25565 (Except.ok 5)).2.promotions
      = [3] := by
  refine ⟨by simp, ?_, ?_⟩ <;> rfl

/-- Witness for `c10_canonical_port_bad_ip`: the re-promotion scenario at a
concrete state. -/
theorem c10_canonical_port_bad_ip_witness :
    (create_bulk_update ⟨[3], [(3, ⟨some 100, 5⟩, [7])], []⟩ 3 25565 (Except.ok 5)).1
      = Except.error "bad ip target" ∧
    (create_bulk_update ⟨[3], [(3, ⟨some 100, 5⟩, [7])], []⟩ 3 25565 (Except.ok 5)).2.promotions
      = [] ++ [3] :=
  (c10_canonical_port_bad_ip ⟨[3], [(3, ⟨some 100, 5⟩, [7])], []⟩ 3 (Except.ok 5)
      (by simp)).2.2 100 5 [7] rfl (by decide) rfl (by norm_num)

/-!
### JSON / BSON model

`serde_json::Value` with object key order preserved (the passive
fingerprinter reads raw top-level key order, spec 4.3, so the crate is used
with an order-preserving map), and the `bson` crate's `Bson`/`Document`.
A `Document` is an ordered association list; `insert` overwrites the value
of an existing key in place and otherwise appends.
-/

inductive Json where
  | null
  | bool (b : Bool)
  | num (n : Int)
  | str (s : String)
  | arr (xs : List Json)
  | obj (fields : List (String × Json))

inductive Bson where
  | null
  | bool (b : Bool)
  | i32 (n : Int)
  | i64 (n : Int)
  | str (s : String)
  | dt (t : Nat)
  | arr (xs : List Bson)
  | doc (fields : List (String × Bson))

/-- `Document::get`. -/
def docGet (d : List (String × Bson)) (k : String) : Option Bson :=
  (d.find? (fun kv => kv.1 = k)).map (fun kv => kv.2)

/-- `Document::contains_key`. -/
def docContainsKey (d : List (String × Bson)) (k : String) : Bool :=
  (docGet d k).isSome

/-- `Document::insert`: overwrite in place if the key exists, else append. -/
def docInsertGo : List (String × Bson) → String → Bson → List (String × Bson)
  | [], k, v => [(k, v)]
  | kv :: rest, k, v => if kv.1 = k then (k, v) :: rest else kv :: docInsertGo rest k v

def docInsert (d : List (String × Bson)) (k : String) (v : Bson) : List (String × Bson) :=
  docInsertGo d k v

/-- `Document::extend`: insert every pair of `e` in order. -/
def docExtend (d e : List (String × Bson)) : List (String × Bson) :=
  e.foldl (fun acc kv => docInsert acc kv.1 kv.2) d

/-- `serde_json::Map::get`. -/
def jsonGet (fields : List (String × Json)) (k : String) : Option Json :=
  ((fields.find? (fun kv => kv.1 = k))).map (fun kv => kv.2)

def bsonAsStr : Bson → Option String
  | .str s => some s
  | _ => none

def bsonAsDoc : Bson → Option (List (String × Bson))
  | .doc d => some d
  | _ => none

def bsonAsArr : Bson → Option (List Bson)
  | .arr a => some a
  | _ => none

mutual

/-- `Bson::deserialize` of a `serde_json::Value` (integers as `Int64`). -/
def jsonToBson : Json → Bson
  | .null => .null
  | .bool b => .bool b
  | .num n => .i64 n
  | .str s => .str s
  | .arr xs => .arr (jsonListToBson xs)
  | .obj fields => .doc (jsonFieldsToBson fields)

def jsonListToBson : List Json → List Bson
  | [] => []
  | x :: xs => jsonToBson x :: jsonListToBson xs

def jsonFieldsToBson : List (String × Json) → List (String × Bson)
  | [] => []
  | (k, v) :: rest => (k, jsonToBson v) :: jsonFieldsToBson rest

end

def hexDigit (n : Nat) : Char :=
  if n < 10 then Char.ofNat (48 + n) else Char.ofNat (87 + n)

/-- JSON string escaping as `serde_json` writes it. -/
def escapeChar (c : Char) : String :=
  if c = Char.ofNat 34 then "\\\""
  else if c = Char.ofNat 92 then "\\\\"
  else if c = Char.ofNat 10 then "\\n"
  else if c = Char.ofNat 13 then "\\r"
  else if c = Char.ofNat 9 then "\\t"
  else if c = Char.ofNat 8 then "\\b"
  else if c = Char.ofNat 12 then "\\f"
  else if c.toNat < 0x20 then
    "\\u00" ++ String.mk [hexDigit (c.toNat / 16), hexDigit (c.toNat % 16)]
  else String.mk [c]

def escapeString (s : String) : String :=
  String.join (s.data.map escapeChar)

mutual

/-- `serde_json::Value::to_string` (the `Display` of a value: its JSON
text). -/
def jsonToString : Json → String
  | .null => "null"
  | .bool true => "true"
  | .bool false => "false"
  | .num n => toString n
  | .str s => "\"" ++ escapeString s ++ "\""
  | .arr xs => "[" ++ jsonListToString xs ++ "]"
  | .obj fields => "\x7b" ++ jsonFieldsToString fields ++ "\x7d"

def jsonListToString : List Json → String
  | [] => ""
  | [x] => jsonToString x
  | x :: xs => jsonToString x ++ "," ++ jsonListToString xs

def jsonFieldsToString : List (String × Json) → String
  | [] => ""
  | [(k, v)] => "\"" ++ escapeString k ++ "\":" ++ jsonToString v
  | (k, v) :: rest => "\"" ++ escapeString k ++ "\":" ++ jsonToString v ++ ","
      ++ jsonFieldsToString rest

end

/-!
### Forge mod-list readers (minecraft.rs lines 270-345)

The readers take the remaining byte slice and return the value read together
with the advanced slice (the source mutates an `&mut &[u8]`).
-/

/-- `read_varint` (lines 270-283): at most 5 bytes; `num` is a `u32`, so the
shifted payload is reduced mod `2^32` as the `<<` on `u32` discards high
bits. -/
def read_varint_go : Nat → Nat → Nat → List Nat → Option (Nat × List Nat)
  | 0, _, _, _ => none
  | fuel + 1, num, shift, bytes =>
    match bytes with
    | [] => none
    | b :: rest =>
      let num := num ||| (((b &&& 0x7F) <<< shift) % 4294967296)
      if b &&& 0x80 = 0 then some (num, rest)
      else read_varint_go fuel num (shift + 7) rest

def read_varint (bytes : List Nat) : Option (Nat × List Nat) :=
  read_varint_go 5 0 0 bytes

/-- `read_bool` (lines 295-299). -/
def read_bool (bytes : List Nat) : Option (Bool × List Nat) :=
  match bytes with
  | [] => none
  | b :: rest => some (b ≠ 0, rest)

/-- `read_u16` (lines 301-308): big-endian. -/
def read_u16 (bytes : List Nat) : Option (Nat × List Nat) :=
  match bytes with
  | b0 :: b1 :: rest => some (b0 * 256 + b1, rest)
  | _ => none

/-- UTF-8 validation and decoding of `std::str::from_utf8` (rejecting stray
or missing continuation bytes, overlong encodings, surrogates, and values
above U+10FFFF), returning the code points. -/
def utf8DecodeGo : List Nat → Option (List Nat)
  | [] => some []
  | b :: rest =>
    if b < 0x80 then (utf8DecodeGo rest).map (fun cps => b :: cps)
    else if b < 0xC0 then none
    else if b < 0xE0 then
      match rest with
      | b1 :: rest1 =>
        if 0x80 ≤ b1 ∧ b1 < 0xC0 then
          let cp := (b - 0xC0) * 64 + (b1 - 0x80)
          if cp < 0x80 then none
          else (utf8DecodeGo rest1).map (fun cps => cp :: cps)
        else none
      | _ => none
    else if b < 0xF0 then
      match rest with
      | b1 :: b2 :: rest2 =>
        if (0x80 ≤ b1 ∧ b1 < 0xC0) ∧ (0x80 ≤ b2 ∧ b2 < 0xC0) then
          let cp := (b - 0xE0) * 4096 + (b1 - 0x80) * 64 + (b2 - 0x80)
          if cp < 0x800 ∨ (0xD800 ≤ cp ∧ cp < 0xE000) then none
          else (utf8DecodeGo rest2).map (fun cps => cp :: cps)
        else none
      | _ => none
    else if b < 0xF8 then
      match rest with
      | b1 :: b2 :: b3 :: rest3 =>
        if (0x80 ≤ b1 ∧ b1 < 0xC0) ∧ (0x80 ≤ b2 ∧ b2 < 0xC0) ∧ (0x80 ≤ b3 ∧ b3 < 0xC0) then
          let cp := (b - 0xF0) * 262144 + (b1 - 0x80) * 4096 + (b2 - 0x80) * 64 + (b3 - 0x80)
          if cp < 0x10000 ∨ 0x110000 ≤ cp then none
          else (utf8DecodeGo rest3).map (fun cps => cp :: cps)
        else none
      | _ => none
    else none

/-- `read_utf` (lines 285-293): varint length prefix, bounds check, UTF-8
validation. -/
def read_utf (bytes : List Nat) : Option (String × List Nat) :=
  match read_varint bytes with
  | none => none
  | some (len, rest) =>
    if rest.length < len then none
    else
      match utf8DecodeGo (rest.take len) with
      | none => none
      | some cps => some (String.mk (cps.map Char.ofNat), rest.drop len)

/-- The per-mod channel loop of `extract_forge_mods` (lines 331-336): name,
version and boolean are read and discarded. -/
def readChannels : Nat → List Nat → Option (List Nat)
  | 0, bytes => some bytes
  | n + 1, bytes =>
    match read_utf bytes with
    | none => none
    | some (_, b1) =>
      match read_utf b1 with
      | none => none
      | some (_, b2) =>
        match read_bool b2 with
        | none => none
        | some (_, b3) => readChannels n b3

/-- The `for _ in 0..mods_size` loop of `extract_forge_mods` (lines
319-342). -/
def readMods : Nat → List Nat → Option (List Bson × List Nat)
  | 0, bytes => some ([], bytes)
  | n + 1, bytes =>
    match read_varint bytes with
    | none => none
    | some (channel_size_and_flag, b1) =>
      let channel_size := channel_size_and_flag >>> 1
      let is_ignore_server_only := channel_size_and_flag &&& 1 ≠ 0
      match read_utf b1 with
      | none => none
      | some (mod_id, b2) =>
        match (if is_ignore_server_only then some ("IGNORESERVERONLY", b2)
               else read_utf b2) with
        | none => none
        | some (mod_version, b3) =>
          match readChannels channel_size b3 with
          | none => none
          | some b4 =>
            match readMods n b4 with
            | none => none
            | some (mods, b5) =>
              some (Bson.doc [("modId", Bson.str mod_id),
                              ("modmarker", Bson.str mod_version)] :: mods, b5)

/-- `extract_forge_mods` (lines 310-345). -/
def extract_forge_mods (encoded : List Nat) : Option (List Bson) :=
  match decode_optimized encoded with
  | none => none
  | some decoded =>
    match read_bool decoded with
    | none => none
    | some (_truncated, b1) =>
      match read_u16 b1 with
      | none => none
      | some (mods_size, b2) =>
        match readMods mods_size b2 with
        | none => none
        | some (mods, _) => some mods

theorem readMods_length (n : Nat) :
    ∀ bytes mods rest, readMods n bytes = some (mods, rest) → mods.length = n := by
  induction n with
  | zero =>
    intro bytes mods rest hr
    simp only [readMods] at hr
    cases hr
    rfl
  | succ n ih =>
    intro bytes mods rest hr
    simp only [readMods] at hr
    cases hv : read_varint bytes with
    | none => rw [hv] at hr; exact absurd hr (by simp)
    | some v =>
      obtain ⟨csf, b1⟩ := v
      rw [hv] at hr
      simp only at hr
      cases hu : read_utf b1 with
      | none => rw [hu] at hr; exact absurd hr (by simp)
      | some u =>
        obtain ⟨mod_id, b2⟩ := u
        rw [hu] at hr
        simp only at hr
        cases hw : (if csf &&& 1 ≠ 0 then some ("IGNORESERVERONLY", b2)
            else read_utf b2) with
        | none => rw [hw] at hr; exact absurd hr (by simp)
        | some w =>
          obtain ⟨mod_version, b3⟩ := w
          rw [hw] at hr
          simp only at hr
          cases hc : readChannels (csf >>> 1) b3 with
          | none => rw [hc] at hr; exact absurd hr (by simp)
          | some b4 =>
            rw [hc] at hr
            simp only at hr
            cases hm : readMods n b4 with
            | none => rw [hm] at hr; exact absurd hr (by simp)
            | some m =>
              obtain ⟨mods0, b5⟩ := m
              rw [hm] at hr
              simp only [Option.some.injEq, Prod.mk.injEq] at hr
              obtain ⟨hmods, -⟩ := hr
              rw [← hmods, List.length_cons, ih b4 mods0 b5 hm]

/-!
### Player sample classification (minecraft.rs lines 406-527)
-/

def ANONYMOUS_PLAYER_NAME : String := "Anonymous Player"

def isHexLowerDigit (c : Char) : Bool :=
  (48 ≤ c.toNat && c.toNat ≤ 57) || (97 ≤ c.toNat && c.toNat ≤ 102)

/-- Whether the 32-character pattern `[0-9a-f]` twelve times, then `[34]`,
then `[0-9a-f]` nineteen times, matches at the start of `cs`. -/
def uuidPatternAt (cs : List Char) : Bool :=
  ((cs.take 12).length = 12 && (cs.take 12).all isHexLowerDigit)
  && (match cs.drop 12 with
      | m :: rest => (m == Char.ofNat 51 || m == Char.ofNat 52)
          && decide (19 ≤ rest.length) && (rest.take 19).all isHexLowerDigit
      | [] => false)

/-- `UUID_REGEX.is_match` (line 439): unanchored, so a match at any start
position counts. -/
def uuidRegexMatch : List Char → Bool
  | [] => uuidPatternAt []
  | c :: rest => uuidPatternAt (c :: rest) || uuidRegexMatch rest

/-- Byte length of a string given as its characters (`str::len`). -/
def strBytes (cs : List Char) : Nat := (cs.map Char.utf8Size).sum

/-- Slicing `s[n..]`: `none` when `n` is not on a character boundary (or
out of bounds), which in Rust is a panic. -/
def sliceAtByte : List Char → Nat → Option (List Char)
  | cs, 0 => some cs
  | [], _ + 1 => none
  | c :: cs, n + 1 =>
    if c.utf8Size ≤ n + 1 then sliceAtByte cs (n + 1 - c.utf8Size) else none

/-- `let is_uuidv4 = uuid.len() >= 12 && uuid[12..].starts_with('4')`
(line 452); `none` models the panic of `uuid[12..]` when byte offset 12 is
not a character boundary. -/
def is_uuidv4 (uuid : List Char) : Option Bool :=
  if 12 ≤ strBytes uuid then
    match sliceAtByte uuid 12 with
    | none => none
    | some rest =>
      match rest with
      | r :: _ => some (r == Char.ofNat 52)
      | [] => some false
  else some false

structure SampleState where
  is_online_mode : Option Bool
  mixed_online_mode : Bool
  fake_sample : Bool
  has_players : Bool
  players_data : List (String × Bson)

inductive SampleOutcome where
  | panicked
  | notDoc
  | ok (st : SampleState)

/-- One iteration of the player-sample loop (lines 424-473). -/
def processPlayer (now : Nat) (st : SampleState) (player : Bson) : SampleOutcome :=
  match bsonAsDoc player with
  | none => SampleOutcome.notDoc
  | some pdoc =>
    let uuid0 := ((docGet pdoc "id").bind bsonAsStr).getD ""
    let name := ((docGet pdoc "name").bind bsonAsStr).getD ""
    let uuid := uuid0.data.filter (fun c => c ≠ Char.ofNat 45)
    let fake_sample :=
      if !uuidRegexMatch uuid && name != ANONYMOUS_PLAYER_NAME then true else st.fake_sample
    let clsf : Option (Option Bool × Bool) :=
      if st.mixed_online_mode then some (st.is_online_mode, st.mixed_online_mode)
      else
        let is_nil := uuid.all (fun c => c == Char.ofNat 48)
        if is_nil then some (st.is_online_mode, st.mixed_online_mode)
        else
          match is_uuidv4 uuid with
          | none => none
          | some v4 =>
            if (v4 && st.is_online_mode == some false)
                || (!v4 && st.is_online_mode == some true) then
              some (st.is_online_mode, true)
            else if st.is_online_mode.isNone then some (some v4, st.mixed_online_mode)
            else some (st.is_online_mode, st.mixed_online_mode)
    match clsf with
    | none => SampleOutcome.panicked
    | some (om, mx) =>
      SampleOutcome.ok
        { is_online_mode := om, mixed_online_mode := mx, fake_sample := fake_sample,
          has_players := true,
          players_data := docInsert st.players_data ("players." ++ String.mk uuid)
            (Bson.doc [("lastSeen", Bson.dt now), ("name", Bson.str name)]) }

/-- The player-sample loop over the (at most 100) inspected entries. -/
def processSample (now : Nat) : List Bson → SampleState → SampleOutcome
  | [], st => SampleOutcome.ok st
  | p :: ps, st =>
    match processPlayer now st p with
    | SampleOutcome.panicked => SampleOutcome.panicked
    | SampleOutcome.notDoc => SampleOutcome.notDoc
    | SampleOutcome.ok st2 => processSample now ps st2

structure PassiveMinecraftFingerprint where
  incorrect_order : Bool
  field_order : Option String
  empty_sample : Bool
  empty_favicon : Bool

inductive CleanResult where
  | panicked
  | skipped
  | produced (d : List (String × Bson))

def PRIVACY_SENTINEL : String :=
  "To protect the privacy of this server and its\nusers, you must log in once to see ping data."

/-- The BSON document before the forge mod-list attachment: the converted
response with the stringified `description`, the best-effort
`cleanDescription`, and the `isForge` flag (lines 353-373). -/
def cleanDoc3 (json : List (String × Json)) (description : Json)
    (cleanDesc : Json → String) : List (String × Bson) :=
  let bdoc := jsonFieldsToBson json
  let d1 := docInsert bdoc "description" (Bson.str (jsonToString description))
  let d2 := docInsert d1 "cleanDescription" (Bson.str (cleanDesc description))
  let legacy_forge := docContainsKey d2 "modinfo"
  let new_forge := docContainsKey d2 "forgeData"
  docInsert d2 "isForge" (Bson.bool (legacy_forge || new_forge))

/-- The document after the forge mod-list attachment attempt (lines
375-381): on decode failure `forgeData` is left untouched. -/
def minecraftDoc (json : List (String × Json)) (description : Json)
    (cleanDesc : Json → String) : List (String × Bson) :=
  let d3 := cleanDoc3 json description cleanDesc
  match docGet d3 "forgeData" with
  | some (Bson.doc fd) =>
    match docGet fd "d" with
    | some (Bson.str dstr) =>
      match extract_forge_mods (dstr.data.map Char.toNat) with
      | some mods =>
        docInsert d3 "forgeData" (Bson.doc (docInsert fd "mods" (Bson.arr mods)))
      | none => d3
    | _ => d3
  | _ => d3

/-- The privacy-sentinel check (line 414): `description == "To protect..."`
on a `serde_json::Value` is string equality when the value is a string. -/
def playerListHidden (description : Json) : Bool :=
  match description with
  | Json.str s => s == PRIVACY_SENTINEL
  | _ => false

/-- The inspected sample entries (lines 416-423): none when the player list
is hidden, else the first 100 entries of `players.sample`. -/
def sampleEntriesOf (d4 : List (String × Bson)) (description : Json) : List Bson :=
  if playerListHidden description then []
  else ((((docGet d4 "players").bind bsonAsDoc).bind
    (fun p => (docGet p "sample").bind bsonAsArr)).getD []).take 100

/-- The `onlineModeGuess` insertion (lines 481-488): note the source's
`if let Some(_) = is_online_mode` matches `Some(false)` as well, so any
non-`None` classification that is not mixed stores 1 ("online"). -/
def withGuess (base0 : List (String × Bson)) (st : SampleState) : List (String × Bson) :=
  if st.mixed_online_mode then docInsert base0 "onlineModeGuess" (Bson.i32 2)
  else if st.is_online_mode.isSome then docInsert base0 "onlineModeGuess" (Bson.i32 1)
  else docInsert base0 "onlineModeGuess" (Bson.i32 0)

/-- The player-map merge and activity timestamp (lines 490-503), suppressed
entirely when the fake-sample flag is set. -/
def withPresence (base1 : List (String × Bson)) (st : SampleState) (now : Nat) :
    List (String × Bson) :=
  if !st.fake_sample then
    let merged := docExtend base1 st.players_data
    if st.has_players then docInsert merged "lastActive" (Bson.dt now)
    else docInsert merged "lastEmpty" (Bson.dt now)
  else base1

/-- The passive-fingerprint fields (lines 505-524). -/
def withFingerprint (base2 : List (String × Bson))
    (passive : Option PassiveMinecraftFingerprint) : List (String × Bson) :=
  match passive with
  | some fp =>
    let b1 := docInsert base2 "fingerprint.passive.incorrectOrder"
      (Bson.bool fp.incorrect_order)
    let b2 :=
      match fp.field_order with
      | some fo => docInsert b1 "fingerprint.passive.fieldOrder" (Bson.str fo)
      | none => b1
    let b3 := docInsert b2 "fingerprint.passive.emptySample" (Bson.bool fp.empty_sample)
    docInsert b3 "fingerprint.passive.emptyFavicon" (Bson.bool fp.empty_favicon)
  | none => base2

/-- Assembly of the final document (lines 476-526) from the sample-loop
state. -/
def assembleCleaned (d4 : List (String × Bson)) (st : SampleState)
    (passive : Option PassiveMinecraftFingerprint) (now : Nat) : List (String × Bson) :=
  withFingerprint
    (withPresence (withGuess [("timestamp", Bson.dt now), ("minecraft", Bson.doc d4)] st)
      st now)
    passive

/-- `clean_response_data` (lines 349-527). `cleanDesc` abstracts
`FormattedText::deserialize(..).unwrap_or_default().to_string()` (an
external crate, always succeeding via the default); `now` is the capture
instant `SystemTime::now()`. `CleanResult.skipped` is the `None` return,
`CleanResult.panicked` the byte-boundary panic inside the loop. -/
def clean_response_data (data : Json) (passive : Option PassiveMinecraftFingerprint)
    (cleanDesc : Json → String) (now : Nat) : CleanResult :=
  match data with
  | Json.obj json =>
    match jsonGet json "description" with
    | none => CleanResult.skipped
    | some description =>
      let d4 := minecraftDoc json description cleanDesc
      match processSample now (sampleEntriesOf d4 description)
          ⟨none, false, false, false, []⟩ with
      | SampleOutcome.panicked => CleanResult.panicked
      | SampleOutcome.notDoc => CleanResult.skipped
      | SampleOutcome.ok st =>
        CleanResult.produced (assembleCleaned d4 st passive now)
  | _ => CleanResult.skipped

/-!
### generate_passive_fingerprint (minecraft.rs lines 637-731)

The caller parses the same raw text, so the embedding takes the parsed JSON
value (a parse failure yields no fingerprint and reaches neither branch).
-/

def jsonAsObj : Json → Option (List (String × Json))
  | .obj f => some f
  | _ => none

def jsonAsArr : Json → Option (List Json)
  | .arr a => some a
  | _ => none

/-- `serde_json::Value::as_u64` on the model (integers only). -/
def jsonAsU64 : Json → Option Nat
  | .num n => if 0 ≤ n then some n.toNat else none
  | _ => none

/-- `serde_json::Value::get` (object field lookup, `None` on other
values). -/
def jsonValueGet (j : Json) (k : String) : Option Json :=
  match j with
  | .obj f => jsonGet f k
  | _ => none

/-- The expected top-level key order (lines 657-662), selected by whether
the protocol version matches `1073741943.. | 762..=0x40000000` (Mojang
changed the order in 23w07a/1.19.4). -/
def correctOrderFor (protocol_version : Nat) : List String :=
  if 1073741943 ≤ protocol_version ∨ (762 ≤ protocol_version ∧ protocol_version ≤ 0x40000000)
  then ["version", "description", "players"]
  else ["description", "players", "version"]

/-- One key of the field-order string (lines 702-708): the key name, with
the filtered sub-object key order in parentheses when that sub-object also
mismatches. -/
def fieldOrderEntry (k : String) (players_keys version_keys : List String)
    (pbad vbad : Bool) : String :=
  k ++ (if k == "players" && pbad then "(" ++ String.intercalate "," players_keys ++ ")"
        else if k == "version" && vbad then "(" ++ String.intercalate "," version_keys ++ ")"
        else "")

/-- Comma-joined field-order string (lines 701-712). -/
def fieldOrderJoin (f : String → String) : List String → String
  | [] => ""
  | [k] => f k
  | k :: rest => f k ++ "," ++ fieldOrderJoin f rest

def generate_passive_fingerprint (data : Json) : PassiveMinecraftFingerprint :=
  let protocol_version :=
    ((((jsonValueGet data "version").bind jsonAsObj).bind
      (fun v => jsonGet v "protocol")).bind jsonAsU64).getD 0
  let empty_favicon :=
    match jsonValueGet data "favicon" with
    | some (Json.str s) => s == ""
    | _ => false
  match data with
  | Json.obj fields =>
    let correct_order := correctOrderFor protocol_version
    let keys := (fields.map Prod.fst).filter (fun k => correct_order.contains k)
    let players := (jsonGet fields "players").bind jsonAsObj
    let version := (jsonGet fields "version").bind jsonAsObj
    let correct_players_order : List String := ["max", "online"]
    let correct_version_order : List String := ["name", "protocol"]
    let players_keys := (players.map (fun s => (s.map Prod.fst).filter
      (fun k => correct_players_order.contains k))).getD []
    let version_keys := (version.map (fun s => (s.map Prod.fst).filter
      (fun k => correct_version_order.contains k))).getD []
    let pbad := !(players_keys == correct_players_order)
    let vbad := !(version_keys == correct_version_order)
    let incorrect_order := !(keys == correct_order) || pbad || vbad
    let field_order :=
      if incorrect_order then
        some (fieldOrderJoin
          (fun k => fieldOrderEntry k players_keys version_keys pbad vbad) keys)
      else none
    let empty_sample :=
      match players with
      | some players2 =>
        match (jsonGet players2 "sample").bind jsonAsArr with
        | some sample => sample.isEmpty
        | none => false
      | none => false
    ⟨incorrect_order, field_order, empty_sample, empty_favicon⟩
  | _ => ⟨false, none, false, empty_favicon⟩

/-- C8: a response with protocol version 754 (below the reordering
threshold, so the expected top-level order is description, players, version)
whose raw top-level keys appear in the order players, version, description
(sub-object orders as expected) is reported with `incorrectOrder = true` and
the field-order string "players,version,description"; the expected order is
selected solely by the two numeric protocol ranges (`correctOrderFor`). -/
theorem c8_passive_order_detection
    (fields pfields vfields : List (String × Json))
    (hv : jsonGet fields "version" = some (Json.obj vfields))
    (hproto : jsonGet vfields "protocol" = some (Json.num 754))
    (hp : jsonGet fields "players" = some (Json.obj pfields))
    (hkeys : (fields.map Prod.fst).filter
        (fun k => (["description", "players", "version"] : List String).contains k)
      = ["players", "version", "description"])
    (hpkeys : (pfields.map Prod.fst).filter
        (fun k => (["max", "online"] : List String).contains k) = ["max", "online"])
    (hvkeys : (vfields.map Prod.fst).filter
        (fun k => (["name", "protocol"] : List String).contains k) = ["name", "protocol"]) :
    correctOrderFor 754 = ["description", "players", "version"] ∧
    (generate_passive_fingerprint (Json.obj fields)).incorrect_order = true ∧
    (generate_passive_fingerprint (Json.obj fields)).field_order
      = some "players,version,description" := by
  have hco : correctOrderFor 754 = ["description", "players", "version"] := by
    unfold correctOrderFor
    rw [if_neg (by decide)]
  have hgetd : ((if (0 : Int) ≤ (754 : Int) then some (Int.toNat 754) else none).getD 0)
      = 754 := rfl
  refine ⟨hco, ?_, ?_⟩ <;>
  · simp only [generate_passive_fingerprint, jsonValueGet, hv, hp, hproto, jsonAsObj,
      jsonAsU64, Option.some_bind, Option.map_some', Option.getD_some, hgetd, hco,
      hkeys, hpkeys, hvkeys, fieldOrderJoin, fieldOrderEntry]
    decide

/-- Witness for `c8_passive_order_detection` at a concrete response. -/
theorem c8_passive_order_detection_witness :
    (generate_passive_fingerprint (Json.obj
        [("players", Json.obj [("max", Json.num 20), ("online", Json.num 0)]),
         ("version", Json.obj [("name", Json.str "1.16.5"), ("protocol", Json.num 754)]),
         ("description", Json.str "A server")])).incorrect_order = true ∧
    (generate_passive_fingerprint (Json.obj
        [("players", Json.obj [("max", Json.num 20), ("online", Json.num 0)]),
         ("version", Json.obj [("name", Json.str "1.16.5"), ("protocol", Json.num 754)]),
         ("description", Json.str "A server")])).field_order
      = some "players,version,description" :=
  ⟨(c8_passive_order_detection
      [("players", Json.obj [("max", Json.num 20), ("online", Json.num 0)]),
       ("version", Json.obj [("name", Json.str "1.16.5"), ("protocol", Json.num 754)]),
       ("description", Json.str "A server")]
      [("max", Json.num 20), ("online", Json.num 0)]
      [("name", Json.str "1.16.5"), ("protocol", Json.num 754)]
      rfl rfl rfl rfl rfl rfl).2.1,
   (c8_passive_order_detection
      [("players", Json.obj [("max", Json.num 20), ("online", Json.num 0)]),
       ("version", Json.obj [("name", Json.str "1.16.5"), ("protocol", Json.num 754)]),
       ("description", Json.str "A server")]
      [("max", Json.num 20), ("online", Json.num 0)]
      [("name", Json.str "1.16.5"), ("protocol", Json.num 754)]
      rfl rfl rfl rfl rfl rfl).2.2⟩

/-! ### Document lemmas -/

theorem docGet_cons_self (k : String) (v : Bson) (rest : List (String × Bson)) :
    docGet ((k, v) :: rest) k = some v := by
  simp [docGet]

theorem docGet_cons_ne (kv : String × Bson) (rest : List (String × Bson)) (k : String)
    (h : ¬ kv.1 = k) : docGet (kv :: rest) k = docGet rest k := by
  simp [docGet, List.find?_cons_of_neg, h]

theorem docGet_docInsert_self (d : List (String × Bson)) (k : String) (v : Bson) :
    docGet (docInsert d k v) k = some v := by
  induction d with
  | nil => simp [docInsert, docInsertGo, docGet]
  | cons kv rest ih =>
    by_cases hk : kv.1 = k
    · simp only [docInsert, docInsertGo, if_pos hk]
      exact docGet_cons_self k v rest
    · simp only [docInsert, docInsertGo, if_neg hk]
      rw [docGet_cons_ne kv _ k hk]
      exact ih

theorem docGet_docInsert_ne (d : List (String × Bson)) (k : String) (v : Bson) (k2 : String)
    (h : ¬ k2 = k) : docGet (docInsert d k v) k2 = docGet d k2 := by
  induction d with
  | nil =>
    simp only [docInsert, docInsertGo]
    rw [docGet_cons_ne (k, v) [] k2 (fun hc => h hc.symm)]
  | cons kv rest ih =>
    by_cases hk : kv.1 = k
    · simp only [docInsert, docInsertGo, if_pos hk]
      rw [docGet_cons_ne (k, v) rest k2 (fun hc => h hc.symm),
        docGet_cons_ne kv rest k2 (by rw [hk]; exact fun hc => h hc.symm)]
    · simp only [docInsert, docInsertGo, if_neg hk]
      by_cases hk2 : kv.1 = k2
      · rw [show kv = (kv.1, kv.2) from rfl, hk2]
        rw [docGet_cons_self, docGet_cons_self]
      · rw [docGet_cons_ne _ _ _ hk2, docGet_cons_ne kv rest k2 hk2]
        exact ih

theorem dck_docInsert_self (d : List (String × Bson)) (k : String) (v : Bson) :
    docContainsKey (docInsert d k v) k = true := by
  simp [docContainsKey, docGet_docInsert_self]

theorem dck_docInsert_ne (d : List (String × Bson)) (k : String) (v : Bson) (k2 : String)
    (h : ¬ k2 = k) : docContainsKey (docInsert d k v) k2 = docContainsKey d k2 := by
  simp [docContainsKey, docGet_docInsert_ne d k v k2 h]

theorem dck_docInsert_mono (d : List (String × Bson)) (k : String) (v : Bson) (k2 : String)
    (h : docContainsKey d k2 = true) : docContainsKey (docInsert d k v) k2 = true := by
  by_cases hk : k2 = k
  · subst hk
    exact dck_docInsert_self d k2 v
  · rw [dck_docInsert_ne d k v k2 hk]
    exact h

theorem dck_docInsert_of (d : List (String × Bson)) (k : String) (v : Bson) (k2 : String)
    (h : docContainsKey (docInsert d k v) k2 = true) :
    k2 = k ∨ docContainsKey d k2 = true := by
  by_cases hk : k2 = k
  · exact Or.inl hk
  · rw [dck_docInsert_ne d k v k2 hk] at h
    exact Or.inr h

theorem docExtend_nil (d : List (String × Bson)) : docExtend d [] = d := rfl

theorem docExtend_cons (d : List (String × Bson)) (k : String) (v : Bson)
    (e : List (String × Bson)) :
    docExtend d ((k, v) :: e) = docExtend (docInsert d k v) e := rfl

theorem dck_docExtend_left (e : List (String × Bson)) :
    ∀ d k, docContainsKey d k = true → docContainsKey (docExtend d e) k = true := by
  induction e with
  | nil => intro d k h; exact h
  | cons kv rest ih =>
    intro d k h
    obtain ⟨k0, v0⟩ := kv
    rw [docExtend_cons]
    exact ih _ k (dck_docInsert_mono d k0 v0 k h)

theorem dck_docExtend_right (e : List (String × Bson)) :
    ∀ d k, k ∈ e.map Prod.fst → docContainsKey (docExtend d e) k = true := by
  induction e with
  | nil => intro d k h; simp at h
  | cons kv rest ih =>
    intro d k h
    obtain ⟨k0, v0⟩ := kv
    rw [docExtend_cons]
    rcases List.mem_cons.mp h with h1 | h1
    · subst h1
      exact dck_docExtend_left rest _ _ (dck_docInsert_self d _ v0)
    · exact ih _ k h1

theorem dck_docExtend_of (e : List (String × Bson)) :
    ∀ d k, docContainsKey (docExtend d e) k = true →
    docContainsKey d k = true ∨ k ∈ e.map Prod.fst := by
  induction e with
  | nil => intro d k h; exact Or.inl h
  | cons kv rest ih =>
    intro d k h
    obtain ⟨k0, v0⟩ := kv
    rw [docExtend_cons] at h
    rcases ih _ k h with h1 | h1
    · rcases dck_docInsert_of d k0 v0 k h1 with h2 | h2
      · subst h2
        exact Or.inr (by simp)
      · exact Or.inl h2
    · exact Or.inr (by simp [h1])

/-! ### Sample-loop lemmas -/

theorem processSample_append (now : Nat) :
    ∀ (a b : List Bson) (st : SampleState),
    processSample now (a ++ b) st
      = match processSample now a st with
        | SampleOutcome.ok st1 => processSample now b st1
        | r => r := by
  intro a
  induction a with
  | nil => intro b st; rfl
  | cons p ps ih =>
    intro b st
    simp only [List.cons_append, processSample]
    cases processPlayer now st p with
    | panicked => rfl
    | notDoc => rfl
    | ok st2 => exact ih b st2

theorem processPlayer_fake_mono (now : Nat) (st : SampleState) (player : Bson)
    (st2 : SampleState) (h : processPlayer now st player = SampleOutcome.ok st2)
    (hf : st.fake_sample = true) : st2.fake_sample = true := by
  unfold processPlayer at h
  cases hdoc : bsonAsDoc player with
  | none => rw [hdoc] at h; exact absurd h (by simp)
  | some pdoc =>
    rw [hdoc] at h
    simp only at h
    split at h
    · exact absurd h (by simp)
    · simp only [SampleOutcome.ok.injEq] at h
      rw [← h]
      simp only
      split
      · rfl
      · exact hf

theorem processSample_fake_mono (now : Nat) :
    ∀ (entries : List Bson) (st st2 : SampleState),
    processSample now entries st = SampleOutcome.ok st2 →
    st.fake_sample = true → st2.fake_sample = true := by
  intro entries
  induction entries with
  | nil =>
    intro st st2 h hf
    simp only [processSample, SampleOutcome.ok.injEq] at h
    rw [← h]
    exact hf
  | cons p ps ih =>
    intro st st2 h hf
    simp only [processSample] at h
    cases hp : processPlayer now st p with
    | panicked => rw [hp] at h; exact absurd h (by simp)
    | notDoc => rw [hp] at h; exact absurd h (by simp)
    | ok st1 =>
      rw [hp] at h
      exact ih st1 st2 h (processPlayer_fake_mono now st p st1 hp hf)

theorem processPlayer_fake_set (now : Nat) (st : SampleState) (player : Bson)
    (pdoc : List (String × Bson))
    (hdoc : bsonAsDoc player = some pdoc)
    (hregex : uuidRegexMatch ((((docGet pdoc "id").bind bsonAsStr).getD "").data.filter
      (fun c => c ≠ Char.ofNat 45)) = false)
    (hname : ¬ (((docGet pdoc "name").bind bsonAsStr).getD "") = ANONYMOUS_PLAYER_NAME)
    (st2 : SampleState) (h : processPlayer now st player = SampleOutcome.ok st2) :
    st2.fake_sample = true := by
  unfold processPlayer at h
  rw [hdoc] at h
  simp only at h
  split at h
  · exact absurd h (by simp)
  · simp only [SampleOutcome.ok.injEq] at h
    rw [← h]
    simp only
    rw [if_pos]
    rw [hregex]
    simp [hname]

theorem mem_keys_docInsert (d : List (String × Bson)) (k0 : String) (v : Bson) :
    ∀ k ∈ (docInsert d k0 v).map Prod.fst, k ∈ d.map Prod.fst ∨ k = k0 := by
  induction d with
  | nil =>
    intro k hk
    simp only [docInsert, docInsertGo, List.map_cons, List.map_nil, List.mem_singleton] at hk
    exact Or.inr hk
  | cons kv rest ih =>
    intro k hk
    by_cases hk0 : kv.1 = k0
    · simp only [docInsert, docInsertGo, if_pos hk0, List.map_cons, List.mem_cons] at hk
      rcases hk with h1 | h1
      · exact Or.inr h1
      · exact Or.inl (by simp [h1])
    · simp only [docInsert, docInsertGo, if_neg hk0, List.map_cons, List.mem_cons] at hk
      rcases hk with h1 | h1
      · exact Or.inl (by simp [h1])
      · rcases ih k h1 with h2 | h2
        · exact Or.inl (List.mem_cons_of_mem _ h2)
        · exact Or.inr h2

/-- Every key the sample loop adds to the per-player map update has the
shape `players.<identifier>`. -/
theorem processSample_players_keys (now : Nat) :
    ∀ (entries : List Bson) (st st2 : SampleState),
    processSample now entries st = SampleOutcome.ok st2 →
    (∀ k ∈ st.players_data.map Prod.fst, ∃ s, k = "players." ++ s) →
    ∀ k ∈ st2.players_data.map Prod.fst, ∃ s, k = "players." ++ s := by
  intro entries
  induction entries with
  | nil =>
    intro st st2 h hk
    simp only [processSample, SampleOutcome.ok.injEq] at h
    rw [← h]
    exact hk
  | cons p ps ih =>
    intro st st2 h hk
    simp only [processSample] at h
    cases hp : processPlayer now st p with
    | panicked => rw [hp] at h; exact absurd h (by simp)
    | notDoc => rw [hp] at h; exact absurd h (by simp)
    | ok st1 =>
      rw [hp] at h
      refine ih st1 st2 h ?_
      unfold processPlayer at hp
      cases hdoc : bsonAsDoc p with
      | none => rw [hdoc] at hp; exact absurd hp (by simp)
      | some pdoc =>
        rw [hdoc] at hp
        simp only at hp
        split at hp
        · exact absurd hp (by simp)
        · simp only [SampleOutcome.ok.injEq] at hp
          rw [← hp]
          intro k hkmem
          rcases mem_keys_docInsert _ _ _ k hkmem with h1 | h1
          · exact hk k h1
          · exact ⟨_, h1⟩

/-- A key of shape `players.<s>` differs from any string not starting with
the character `p`. -/
theorem playersKey_ne (s t : String) (h : ¬ t.data.head? = some (Char.ofNat 112)) :
    ¬ ("players." ++ s = t) := by
  intro hc
  apply h
  rw [← hc]
  rfl

/-! ### assembleCleaned stage lemmas -/

theorem dck_withGuess_mono (b : List (String × Bson)) (st : SampleState) (k : String)
    (h : docContainsKey b k = true) : docContainsKey (withGuess b st) k = true := by
  unfold withGuess
  split
  · exact dck_docInsert_mono _ _ _ _ h
  · split
    · exact dck_docInsert_mono _ _ _ _ h
    · exact dck_docInsert_mono _ _ _ _ h

theorem dck_withGuess_omg (b : List (String × Bson)) (st : SampleState) :
    docContainsKey (withGuess b st) "onlineModeGuess" = true := by
  unfold withGuess
  split
  · exact dck_docInsert_self _ _ _
  · split
    · exact dck_docInsert_self _ _ _
    · exact dck_docInsert_self _ _ _

theorem dck_withGuess_ne (b : List (String × Bson)) (st : SampleState) (k : String)
    (h : ¬ k = "onlineModeGuess") : docContainsKey (withGuess b st) k = docContainsKey b k := by
  unfold withGuess
  split
  · exact dck_docInsert_ne _ _ _ _ h
  · split
    · exact dck_docInsert_ne _ _ _ _ h
    · exact dck_docInsert_ne _ _ _ _ h

theorem withPresence_fake (b : List (String × Bson)) (st : SampleState) (now : Nat)
    (h : st.fake_sample = true) : withPresence b st now = b := by
  unfold withPresence
  rw [h]
  rfl

theorem withPresence_active (b : List (String × Bson)) (st : SampleState) (now : Nat)
    (hf : st.fake_sample = false) (hp : st.has_players = true) :
    withPresence b st now = docInsert (docExtend b st.players_data) "lastActive" (Bson.dt now) := by
  unfold withPresence
  rw [hf, hp]
  rfl

theorem withPresence_empty (b : List (String × Bson)) (st : SampleState) (now : Nat)
    (hf : st.fake_sample = false) (hp : st.has_players = false) :
    withPresence b st now = docInsert (docExtend b st.players_data) "lastEmpty" (Bson.dt now) := by
  unfold withPresence
  rw [hf, hp]
  rfl

theorem dck_withFingerprint_mono (b : List (String × Bson))
    (p : Option PassiveMinecraftFingerprint) (k : String)
    (h : docContainsKey b k = true) : docContainsKey (withFingerprint b p) k = true := by
  unfold withFingerprint
  cases p with
  | none => exact h
  | some fp =>
    simp only
    apply dck_docInsert_mono
    apply dck_docInsert_mono
    cases hfo : fp.field_order with
    | none => exact dck_docInsert_mono _ _ _ _ h
    | some fo => exact dck_docInsert_mono _ _ _ _ (dck_docInsert_mono _ _ _ _ h)

theorem dck_withFingerprint_ne (b : List (String × Bson))
    (p : Option PassiveMinecraftFingerprint) (k : String)
    (h1 : ¬ k = "fingerprint.passive.incorrectOrder")
    (h2 : ¬ k = "fingerprint.passive.fieldOrder")
    (h3 : ¬ k = "fingerprint.passive.emptySample")
    (h4 : ¬ k = "fingerprint.passive.emptyFavicon") :
    docContainsKey (withFingerprint b p) k = docContainsKey b k := by
  unfold withFingerprint
  cases p with
  | none => rfl
  | some fp =>
    simp only
    rw [dck_docInsert_ne _ _ _ _ h4, dck_docInsert_ne _ _ _ _ h3]
    cases hfo : fp.field_order with
    | none => exact dck_docInsert_ne _ _ _ _ h1
    | some fo => rw [dck_docInsert_ne _ _ _ _ h2, dck_docInsert_ne _ _ _ _ h1]

theorem dck_pair_timestamp (d4 : List (String × Bson)) (now : Nat) :
    docContainsKey [("timestamp", Bson.dt now), ("minecraft", Bson.doc d4)] "timestamp"
      = true := by
  simp [docContainsKey, docGet_cons_self]

theorem dck_pair_other (d4 : List (String × Bson)) (now : Nat) (k : String)
    (h1 : ¬ ("timestamp" : String) = k) (h2 : ¬ ("minecraft" : String) = k) :
    docContainsKey [("timestamp", Bson.dt now), ("minecraft", Bson.doc d4)] k = false := by
  simp only [docContainsKey]
  rw [docGet_cons_ne _ _ _ h1, docGet_cons_ne _ _ _ h2]
  rfl

/-- The hyphen-stripped identifier of a sample entry (lines 427-436). -/
def sampleEntryUuid (pdoc : List (String × Bson)) : List Char :=
  (((docGet pdoc "id").bind bsonAsStr).getD "").data.filter (fun c => c ≠ Char.ofNat 45)

/-- The display name of a sample entry (lines 431-434). -/
def sampleEntryName (pdoc : List (String × Bson)) : String :=
  ((docGet pdoc "name").bind bsonAsStr).getD ""

/-- C6: if an inspected sample entry is non-anonymous by name and its
hyphen-stripped identifier fails the canonical pattern, the fake-sample flag
is set and the produced document has no per-player entries and neither
activity timestamp, while `timestamp` and `onlineModeGuess` are still set;
with the flag unset, the player-map entries are merged and exactly one of
`lastActive` (players seen) or `lastEmpty` (none) is set. -/
theorem c6_fake_sample_suppression :
    (∀ (json : List (String × Json)) (description : Json) (cleanDesc : Json → String)
       (now : Nat) (passive : Option PassiveMinecraftFingerprint)
       (pre post : List Bson) (player : Bson) (pdoc : List (String × Bson)) (st : SampleState),
      jsonGet json "description" = some description →
      sampleEntriesOf (minecraftDoc json description cleanDesc) description
        = pre ++ player :: post →
      bsonAsDoc player = some pdoc →
      uuidRegexMatch (sampleEntryUuid pdoc) = false →
      ¬ sampleEntryName pdoc = ANONYMOUS_PLAYER_NAME →
      processSample now (pre ++ player :: post) ⟨none, false, false, false, []⟩
        = SampleOutcome.ok st →
      clean_response_data (Json.obj json) passive cleanDesc now
          = CleanResult.produced
            (assembleCleaned (minecraftDoc json description cleanDesc) st passive now) ∧
      st.fake_sample = true ∧
      docContainsKey (assembleCleaned (minecraftDoc json description cleanDesc) st passive now)
        "timestamp" = true ∧
      docContainsKey (assembleCleaned (minecraftDoc json description cleanDesc) st passive now)
        "onlineModeGuess" = true ∧
      docContainsKey (assembleCleaned (minecraftDoc json description cleanDesc) st passive now)
        "lastActive" = false ∧
      docContainsKey (assembleCleaned (minecraftDoc json description cleanDesc) st passive now)
        "lastEmpty" = false ∧
      (∀ s, docContainsKey
        (assembleCleaned (minecraftDoc json description cleanDesc) st passive now)
        ("players." ++ s) = false)) ∧
    (∀ (now : Nat) (entries : List Bson) (st : SampleState) (d4 : List (String × Bson))
       (passive : Option PassiveMinecraftFingerprint),
      processSample now entries ⟨none, false, false, false, []⟩ = SampleOutcome.ok st →
      st.fake_sample = false →
      (∀ k ∈ st.players_data.map Prod.fst,
        docContainsKey (assembleCleaned d4 st passive now) k = true) ∧
      docContainsKey (assembleCleaned d4 st passive now) "timestamp" = true ∧
      docContainsKey (assembleCleaned d4 st passive now) "onlineModeGuess" = true ∧
      (st.has_players = true →
        docContainsKey (assembleCleaned d4 st passive now) "lastActive" = true ∧
        docContainsKey (assembleCleaned d4 st passive now) "lastEmpty" = false) ∧
      (st.has_players = false →
        docContainsKey (assembleCleaned d4 st passive now) "lastEmpty" = true ∧
        docContainsKey (assembleCleaned d4 st passive now) "lastActive" = false)) := by
  constructor
  · intro json description cleanDesc now passive pre post player pdoc st
      hdesc hentries hpdoc hregex hname hsample
    have hfake : st.fake_sample = true := by
      rw [processSample_append] at hsample
      cases hpre : processSample now pre ⟨none, false, false, false, []⟩ with
      | panicked => rw [hpre] at hsample; exact absurd hsample (by simp)
      | notDoc => rw [hpre] at hsample; exact absurd hsample (by simp)
      | ok st1 =>
        rw [hpre] at hsample
        simp only [processSample] at hsample
        cases hpl : processPlayer now st1 player with
        | panicked => rw [hpl] at hsample; exact absurd hsample (by simp)
        | notDoc => rw [hpl] at hsample; exact absurd hsample (by simp)
        | ok st2 =>
          rw [hpl] at hsample
          have h2 : st2.fake_sample = true :=
            processPlayer_fake_set now st1 player pdoc hpdoc hregex hname st2 hpl
          exact processSample_fake_mono now post st2 st hsample h2
    have hprod : clean_response_data (Json.obj json) passive cleanDesc now
        = CleanResult.produced
          (assembleCleaned (minecraftDoc json description cleanDesc) st passive now) := by
      simp only [clean_response_data]
      rw [hdesc]
      simp only
      rw [hentries, hsample]
    refine ⟨hprod, hfake, ?_, ?_, ?_, ?_, ?_⟩
    · unfold assembleCleaned
      rw [withPresence_fake _ _ _ hfake]
      exact dck_withFingerprint_mono _ _ _ (dck_withGuess_mono _ _ _ (dck_pair_timestamp _ _))
    · unfold assembleCleaned
      rw [withPresence_fake _ _ _ hfake]
      exact dck_withFingerprint_mono _ _ _ (dck_withGuess_omg _ _)
    · unfold assembleCleaned
      rw [withPresence_fake _ _ _ hfake]
      rw [dck_withFingerprint_ne _ _ _ (by decide) (by decide) (by decide) (by decide)]
      rw [dck_withGuess_ne _ _ _ (by decide)]
      exact dck_pair_other _ _ _ (by decide) (by decide)
    · unfold assembleCleaned
      rw [withPresence_fake _ _ _ hfake]
      rw [dck_withFingerprint_ne _ _ _ (by decide) (by decide) (by decide) (by decide)]
      rw [dck_withGuess_ne _ _ _ (by decide)]
      exact dck_pair_other _ _ _ (by decide) (by decide)
    · intro s
      unfold assembleCleaned
      rw [withPresence_fake _ _ _ hfake]
      rw [dck_withFingerprint_ne _ _ _
        (playersKey_ne s _ (by decide)) (playersKey_ne s _ (by decide))
        (playersKey_ne s _ (by decide)) (playersKey_ne s _ (by decide))]
      rw [dck_withGuess_ne _ _ _ (playersKey_ne s _ (by decide))]
      exact dck_pair_other _ _ _
        (fun hc => playersKey_ne s _ (by decide) hc.symm)
        (fun hc => playersKey_ne s _ (by decide) hc.symm)
  · intro now entries st d4 passive hsample hfake
    have hkeys : ∀ k ∈ st.players_data.map Prod.fst, ∃ s, k = "players." ++ s :=
      processSample_players_keys now entries _ st hsample (by intro k hk; simp at hk)
    have hmerged_other : ∀ k2 : String, ¬ ("timestamp" : String) = k2 →
        ¬ ("minecraft" : String) = k2 → ¬ k2 = "onlineModeGuess" →
        (∀ s : String, ¬ k2 = "players." ++ s) →
        docContainsKey (docExtend (withGuess
          [("timestamp", Bson.dt now), ("minecraft", Bson.doc d4)] st) st.players_data) k2
          = false := by
      intro k2 ht hm ho hp
      cases hdk : docContainsKey (docExtend (withGuess
          [("timestamp", Bson.dt now), ("minecraft", Bson.doc d4)] st) st.players_data) k2 with
      | false => rfl
      | true =>
        exfalso
        rcases dck_docExtend_of _ _ _ hdk with h1 | h1
        · rw [dck_withGuess_ne _ _ _ ho, dck_pair_other _ _ _ ht hm] at h1
          exact absurd h1 (by simp)
        · obtain ⟨s, hs⟩ := hkeys _ h1
          exact hp s hs
    refine ⟨?_, ?_, ?_, fun hhp => ⟨?_, ?_⟩, fun hhp => ⟨?_, ?_⟩⟩
    · intro k hk
      unfold assembleCleaned
      cases hhp : st.has_players with
      | true =>
        rw [withPresence_active _ _ _ hfake hhp]
        exact dck_withFingerprint_mono _ _ _
          (dck_docInsert_mono _ _ _ _ (dck_docExtend_right _ _ _ hk))
      | false =>
        rw [withPresence_empty _ _ _ hfake hhp]
        exact dck_withFingerprint_mono _ _ _
          (dck_docInsert_mono _ _ _ _ (dck_docExtend_right _ _ _ hk))
    · unfold assembleCleaned
      cases hhp : st.has_players with
      | true =>
        rw [withPresence_active _ _ _ hfake hhp]
        exact dck_withFingerprint_mono _ _ _ (dck_docInsert_mono _ _ _ _
          (dck_docExtend_left _ _ _ (dck_withGuess_mono _ _ _ (dck_pair_timestamp _ _))))
      | false =>
        rw [withPresence_empty _ _ _ hfake hhp]
        exact dck_withFingerprint_mono _ _ _ (dck_docInsert_mono _ _ _ _
          (dck_docExtend_left _ _ _ (dck_withGuess_mono _ _ _ (dck_pair_timestamp _ _))))
    · unfold assembleCleaned
      cases hhp : st.has_players with
      | true =>
        rw [withPresence_active _ _ _ hfake hhp]
        exact dck_withFingerprint_mono _ _ _ (dck_docInsert_mono _ _ _ _
          (dck_docExtend_left _ _ _ (dck_withGuess_omg _ _)))
      | false =>
        rw [withPresence_empty _ _ _ hfake hhp]
        exact dck_withFingerprint_mono _ _ _ (dck_docInsert_mono _ _ _ _
          (dck_docExtend_left _ _ _ (dck_withGuess_omg _ _)))
    · unfold assembleCleaned
      rw [withPresence_active _ _ _ hfake hhp]
      exact dck_withFingerprint_mono _ _ _ (dck_docInsert_self _ _ _)
    · unfold assembleCleaned
      rw [withPresence_active _ _ _ hfake hhp]
      rw [dck_withFingerprint_ne _ _ _ (by decide) (by decide) (by decide) (by decide)]
      rw [dck_docInsert_ne _ _ _ _ (by decide)]
      exact hmerged_other _ (by decide) (by decide) (by decide)
        (fun s => playersKey_ne s _ (by decide) ∘ Eq.symm)
    · unfold assembleCleaned
      rw [withPresence_empty _ _ _ hfake hhp]
      exact dck_withFingerprint_mono _ _ _ (dck_docInsert_self _ _ _)
    · unfold assembleCleaned
      rw [withPresence_empty _ _ _ hfake hhp]
      rw [dck_withFingerprint_ne _ _ _ (by decide) (by decide) (by decide) (by decide)]
      rw [dck_docInsert_ne _ _ _ _ (by decide)]
      exact hmerged_other _ (by decide) (by decide) (by decide)
        (fun s => playersKey_ne s _ (by decide) ∘ Eq.symm)

/-- Witness for C6 at a one-entry sample whose id `"zz"` fails the pattern
and whose name is not anonymous (part 1), and at the empty sample (part 2). -/
theorem c6_fake_sample_suppression_witness :
    clean_response_data
        (Json.obj [("description", Json.str "hi"),
          ("players", Json.obj [("sample", Json.arr
            [Json.obj [("id", Json.str "zz"), ("name", Json.str "q")]])])])
        none (fun _ => "") 0
      = CleanResult.produced
          (assembleCleaned
            (minecraftDoc [("description", Json.str "hi"),
              ("players", Json.obj [("sample", Json.arr
                [Json.obj [("id", Json.str "zz"), ("name", Json.str "q")]])])]
              (Json.str "hi") (fun _ => ""))
            ⟨some false, false, true, true,
              [("players.zz", Bson.doc [("lastSeen", Bson.dt 0), ("name", Bson.str "q")])]⟩
            none 0)
    ∧ docContainsKey
        (assembleCleaned
          (minecraftDoc [("description", Json.str "hi"),
            ("players", Json.obj [("sample", Json.arr
              [Json.obj [("id", Json.str "zz"), ("name", Json.str "q")]])])]
            (Json.str "hi") (fun _ => ""))
          ⟨some false, false, true, true,
            [("players.zz", Bson.doc [("lastSeen", Bson.dt 0), ("name", Bson.str "q")])]⟩
          none 0) "lastActive" = false
    ∧ docContainsKey (assembleCleaned [("x", Bson.i32 0)]
        ⟨none, false, false, false, []⟩ none 5) "lastEmpty" = true := by
  have h1 := c6_fake_sample_suppression.1
    [("description", Json.str "hi"),
      ("players", Json.obj [("sample", Json.arr
        [Json.obj [("id", Json.str "zz"), ("name", Json.str "q")]])])]
    (Json.str "hi") (fun _ => "") 0 none [] []
    (Bson.doc [("id", Bson.str "zz"), ("name", Bson.str "q")])
    [("id", Bson.str "zz"), ("name", Bson.str "q")]
    ⟨some false, false, true, true,
      [("players.zz", Bson.doc [("lastSeen", Bson.dt 0), ("name", Bson.str "q")])]⟩
    rfl rfl rfl (by decide) (by decide) rfl
  have h2 := c6_fake_sample_suppression.2 5 [] ⟨none, false, false, false, []⟩
    [("x", Bson.i32 0)] none rfl rfl
  exact ⟨h1.1, h1.2.2.2.2.1, (h2.2.2.2.2 rfl).1⟩

/-- C1: the spec's mapping fails in the code: a sample whose single
classified identifier is uuidv3 (13th hex character `3`, unauthenticated)
is persisted with `onlineModeGuess = 1` (online), because line 484's
`if let Some(_) = is_online_mode` also matches `Some(false)`; the spec
(and the code's own comment at line 446) require offline = 0 here. -/
theorem c1_uuidv3_guess_stored_as_online :
    ∃ d, clean_response_data
        (Json.obj [("description", Json.str "hi"),
          ("players", Json.obj [("sample", Json.arr
            [Json.obj [("id", Json.str "00000000000030000000000000000000"), ("name", Json.str "p")]])])])
        none (fun _ => "") 0
      = CleanResult.produced d
    ∧ docGet d "onlineModeGuess" = some (Bson.i32 1) := by
  exact ⟨_, rfl, rfl⟩

/-- Slicing at a byte offset that stays within a run of one-byte characters
always lands on a character boundary. -/
lemma sliceAtByte_ascii : ∀ (uuid : List Char) (n : Nat),
    (∀ c ∈ uuid, Char.utf8Size c = 1) → n ≤ uuid.length →
    (sliceAtByte uuid n).isSome = true
  | uuid, 0, _, _ => by cases uuid <;> rfl
  | [], n + 1, _, hn => absurd hn (by simp)
  | c :: cs, n + 1, h, hn => by
    have hc : Char.utf8Size c = 1 := h c (List.mem_cons_self c cs)
    simp only [sliceAtByte, hc]
    rw [if_pos (by omega)]
    exact sliceAtByte_ascii cs n (fun d hd => h d (List.mem_cons_of_mem c hd))
      (by simp only [List.length_cons] at hn; omega)

/-- A string of one-byte characters has byte length equal to its character
count. -/
lemma strBytes_ascii (uuid : List Char) (h : ∀ c ∈ uuid, Char.utf8Size c = 1) :
    strBytes uuid = uuid.length := by
  induction uuid with
  | nil => rfl
  | cons c cs ih =>
    simp only [strBytes, List.map_cons, List.sum_cons, List.length_cons] at *
    rw [h c (List.mem_cons_self c cs), ih (fun d hd => h d (List.mem_cons_of_mem c hd))]
    omega

/-- Whenever byte offset 12 falls on a character boundary (or the
identifier is shorter than 12 bytes, so the guard skips the slice), the
uuidv4 check cannot hit the byte-boundary panic. -/
lemma is_uuidv4_isSome_of_boundary (uuid : List Char)
    (h : strBytes uuid < 12 ∨ (sliceAtByte uuid 12).isSome = true) :
    (is_uuidv4 uuid).isSome = true := by
  unfold is_uuidv4
  by_cases h12 : 12 ≤ strBytes uuid
  · rw [if_pos h12]
    rcases h with h | h
    · omega
    · obtain ⟨rest, hrest⟩ := Option.isSome_iff_exists.mp h
      rw [hrest]
      cases rest <;> rfl
  · rw [if_neg h12]; rfl

/-- The one-byte-characters case of the boundary condition: within a run of
one-byte characters every byte offset is a character boundary. -/
lemma is_uuidv4_isSome_of_ascii (uuid : List Char)
    (h : ∀ c ∈ uuid, Char.utf8Size c = 1) : (is_uuidv4 uuid).isSome = true := by
  by_cases h12 : 12 ≤ uuid.length
  · exact is_uuidv4_isSome_of_boundary uuid (Or.inr (sliceAtByte_ascii uuid 12 h h12))
  · exact is_uuidv4_isSome_of_boundary uuid (Or.inl (by rw [strBytes_ascii uuid h]; omega))

/-- C9 counterexample: an id of eleven one-byte characters followed by a
three-byte character has byte length 14 ≥ 12, but byte offset 12 falls
inside the final character, so `uuid[12..]` (line 452) panics. -/
theorem c9_counterexample_non_boundary_panics :
    clean_response_data
      (Json.obj [("description", Json.str "hi"),
        ("players", Json.obj [("sample", Json.arr
          [Json.obj [("id", Json.str "aaaaaaaaaaa\u2713"), ("name", Json.str "p")]])])])
      none (fun _ => "") 0 = CleanResult.panicked := rfl

/-- C9 (amended): classification is total exactly on the identifiers the
slice cannot break: whenever the hyphen-stripped identifier either is
shorter than 12 bytes (the guard skips the slice) or has byte offset 12 on
a character boundary, the uuidv4 check is defined and the per-player step
of the sample loop never panics — multi-byte characters included. -/
theorem c9_classification_total_on_char_boundary :
    (∀ uuid : List Char,
      strBytes uuid < 12 ∨ (sliceAtByte uuid 12).isSome = true →
      (is_uuidv4 uuid).isSome = true)
    ∧ (∀ (now : Nat) (st : SampleState) (player : Bson) (pdoc : List (String × Bson)),
        bsonAsDoc player = some pdoc →
        strBytes ((((docGet pdoc "id").bind bsonAsStr).getD "").data.filter
            (fun c => c ≠ Char.ofNat 45)) < 12
          ∨ (sliceAtByte ((((docGet pdoc "id").bind bsonAsStr).getD "").data.filter
              (fun c => c ≠ Char.ofNat 45)) 12).isSome = true →
        ¬ processPlayer now st player = SampleOutcome.panicked) := by
  refine ⟨fun uuid h => is_uuidv4_isSome_of_boundary uuid h, ?_⟩
  intro now st player pdoc hpdoc hbound hpan
  obtain ⟨v4, hv4⟩ := Option.isSome_iff_exists.mp (is_uuidv4_isSome_of_boundary _ hbound)
  simp only [processPlayer, hpdoc] at hpan
  cases hmx : st.mixed_online_mode with
  | true => rw [hmx] at hpan; simp at hpan
  | false =>
    rw [hmx] at hpan
    simp only [if_neg Bool.false_ne_true] at hpan
    cases hnil : ((((docGet pdoc "id").bind bsonAsStr).getD "").data.filter
        (fun c => c ≠ Char.ofNat 45)).all (fun c => c == Char.ofNat 48) with
    | true => rw [hnil] at hpan; simp at hpan
    | false =>
      rw [hnil, hv4] at hpan
      simp only [Bool.false_eq_true, if_false] at hpan
      cases hb1 : (v4 && st.is_online_mode == some false
          || (!v4 && st.is_online_mode == some true)) with
      | true => rw [hb1] at hpan; simp at hpan
      | false =>
        rw [hb1] at hpan
        cases hb2 : st.is_online_mode.isNone with
        | true => rw [hb2] at hpan; simp at hpan
        | false => rw [hb2] at hpan; simp at hpan

/-- Witness for C9 at a twelve-byte identifier of six two-byte characters
(boundary at byte 12 between multi-byte characters) and at the short
identifier `"ab"`. -/
theorem c9_classification_total_on_char_boundary_witness :
    (is_uuidv4 (List.replicate 6 (Char.ofNat 233))).isSome = true
    ∧ ¬ processPlayer 0 ⟨none, false, false, false, []⟩
        (Bson.doc [("id", Bson.str "ab"), ("name", Bson.str "x")])
        = SampleOutcome.panicked := by
  exact ⟨c9_classification_total_on_char_boundary.1 (List.replicate 6 (Char.ofNat 233))
      (Or.inr (by decide)),
    c9_classification_total_on_char_boundary.2 0 ⟨none, false, false, false, []⟩
      (Bson.doc [("id", Bson.str "ab"), ("name", Bson.str "x")])
      [("id", Bson.str "ab"), ("name", Bson.str "x")] rfl (Or.inl (by decide))⟩

/-- C5: the Forge mod-list decode is all-or-nothing: a successful
`extract_forge_mods` went through the truncated flag, the declared mod
count `n`, and exactly `n` mod records (never a partial list); when the
decode fails, `forgeData` is left untouched; and the record is still
produced whenever a description exists and the sample loop completes. -/
theorem c5_forge_decode_all_or_nothing :
    (∀ (encoded : List Nat) (mods : List Bson),
      extract_forge_mods encoded = some mods →
      ∃ decoded tr b1 n b2 rest,
        decode_optimized encoded = some decoded ∧
        read_bool decoded = some (tr, b1) ∧
        read_u16 b1 = some (n, b2) ∧
        readMods n b2 = some (mods, rest) ∧
        mods.length = n)
    ∧ (∀ (json : List (String × Json)) (description : Json) (cleanDesc : Json → String)
         (fd : List (String × Bson)) (dstr : String),
        docGet (cleanDoc3 json description cleanDesc) "forgeData" = some (Bson.doc fd) →
        docGet fd "d" = some (Bson.str dstr) →
        extract_forge_mods (dstr.data.map Char.toNat) = none →
        minecraftDoc json description cleanDesc = cleanDoc3 json description cleanDesc)
    ∧ (∀ (json : List (String × Json)) (passive : Option PassiveMinecraftFingerprint)
         (cleanDesc : Json → String) (now : Nat) (description : Json) (st : SampleState),
        jsonGet json "description" = some description →
        processSample now
            (sampleEntriesOf (minecraftDoc json description cleanDesc) description)
            ⟨none, false, false, false, []⟩ = SampleOutcome.ok st →
        clean_response_data (Json.obj json) passive cleanDesc now
          = CleanResult.produced
              (assembleCleaned (minecraftDoc json description cleanDesc) st passive now)) := by
  refine ⟨?_, ?_, ?_⟩
  · intro encoded mods hx
    simp only [extract_forge_mods] at hx
    cases hd : decode_optimized encoded with
    | none => rw [hd] at hx; exact absurd hx (by simp)
    | some decoded =>
      rw [hd] at hx
      simp only at hx
      cases hb : read_bool decoded with
      | none => rw [hb] at hx; exact absurd hx (by simp)
      | some p =>
        obtain ⟨tr, b1⟩ := p
        rw [hb] at hx
        simp only at hx
        cases hu : read_u16 b1 with
        | none => rw [hu] at hx; exact absurd hx (by simp)
        | some q =>
          obtain ⟨n, b2⟩ := q
          rw [hu] at hx
          simp only at hx
          cases hm : readMods n b2 with
          | none => rw [hm] at hx; exact absurd hx (by simp)
          | some r =>
            obtain ⟨mods0, rest⟩ := r
            rw [hm] at hx
            simp only at hx
            injection hx with hx2
            subst hx2
            exact ⟨decoded, tr, b1, n, b2, rest, rfl, hb, hu, hm,
              readMods_length n b2 mods0 rest hm⟩
  · intro json description cleanDesc fd dstr h1 h2 h3
    simp only [minecraftDoc]
    rw [h1]
    simp only
    rw [h2]
    simp only
    rw [h3]
  · intro json passive cleanDesc now description st h1 h2
    simp only [clean_response_data]
    rw [h1]
    simp only
    rw [h2]

/-- Witness for C5: a successfully decoded empty mod list, an undecodable
`forgeData.d` payload leaving the document untouched, and a record with no
forge data still produced. -/
theorem c5_forge_decode_all_or_nothing_witness :
    (decode_optimized (encode_optimized [0, 0, 0])).isSome = true
    ∧ minecraftDoc
        [("description", Json.str "hi"), ("forgeData", Json.obj [("d", Json.str "x")])]
        (Json.str "hi") (fun _ => "")
      = cleanDoc3
        [("description", Json.str "hi"), ("forgeData", Json.obj [("d", Json.str "x")])]
        (Json.str "hi") (fun _ => "")
    ∧ clean_response_data (Json.obj [("description", Json.str "hi")]) none (fun _ => "") 0
      = CleanResult.produced
          (assembleCleaned
            (minecraftDoc [("description", Json.str "hi")] (Json.str "hi") (fun _ => ""))
            ⟨none, false, false, false, []⟩ none 0) := by
  obtain ⟨decoded, tr, b1, n, b2, rest, hd, -, -, -, -⟩ :=
    c5_forge_decode_all_or_nothing.1 (encode_optimized [0, 0, 0]) [] rfl
  exact ⟨by rw [hd]; rfl,
    c5_forge_decode_all_or_nothing.2.1 _ (Json.str "hi") (fun _ => "")
      [("d", Bson.str "x")] "x" rfl rfl rfl,
    c5_forge_decode_all_or_nothing.2.2 _ none (fun _ => "") 0 (Json.str "hi")
      ⟨none, false, false, false, []⟩ rfl rfl⟩

end Matscan
